import Mathlib

/-!
# Verification of the indexed-value algebra and interruption event loop

Shallow embedding of `causal_pyro/indexed/internals.py` (gather / scatter /
indices_of over named world dimensions) and
`chirho/dynamical/handlers/event_loop.py` (the interruption event loop),
with theorems checking the specification's claims against the code.

Tensors are modelled functionally: a tensor is a rank, a size function giving
the length of each axis counted *from the right* (offset 0 is the last axis,
matching the negative-dimension convention of the source), and a data function
from multi-indices (also keyed by offset from the right) to integer entries.
Sizes beyond the rank are read as 1, which makes torch-style right-aligned
broadcasting pointwise.
-/

namespace CausalPyro

/-- A name of a world dimension (Python `Hashable`, here `String`). -/
abbrev Name := String

/-- An index set: an association list from world-dimension name to the finite
set of selected indices along that dimension.  Models the Python `IndexSet`
(a dict from name to a set of non-negative integers); list order models dict
insertion order, which is the order `.items()` iterates in the source. -/
abbrev IndexSet := List (Name × Finset ℕ)

/-- A name→dim map: an association list from world-dimension name to its
(signed, negative in the registry invariant) broadcasting dimension. -/
abbrev NameToDim := List (Name × ℤ)

/-- `name_to_dim[name]` lookup.  The Python dict lookup raises `KeyError` when
absent; theorems carry the presence hypothesis `m.lookup n = some d`. -/
def lookupDim (m : NameToDim) (n : Name) : ℤ := (m.lookup n).getD 0

/-- A registered index plate: `name`, allocated (negative) dimension, and the
total size of the world dimension, as held by the `get_index_plates` registry. -/
structure Plate where
  name : Name
  dim : ℤ
  size : ℕ
deriving DecidableEq, Repr

/-- Functional model of a `torch.Tensor`: axis sizes are keyed by offset from
the right (offset 0 = last axis), entries by a multi-index with the same
keying.  `data` is only meaningful at in-range indices. -/
structure Tensor where
  rank : ℕ
  size : ℕ → ℕ
  data : (ℕ → ℕ) → ℤ

/-- The broadcast-aware axis length: 1 beyond the rank (torch right-aligned
broadcasting treats missing leading axes as length 1). -/
def Tensor.sizeAt (t : Tensor) (i : ℕ) : ℕ :=
  if i < t.rank then t.size i else 1

/-- `t.shape[d]` — Python indexing of the shape tuple by a signed index
(`d < 0` counts from the right).  Out-of-range reads (which raise in Python)
return the junk value of `sizeAt`; all theorems guard them. -/
def Tensor.shapeAt (t : Tensor) (d : ℤ) : ℕ :=
  if d < 0 then t.sizeAt ((-d).toNat - 1) else t.sizeAt (t.rank - 1 - d.toNat)

/-- The offset from the right of the axis targeted by registry dimension `d`
at event dimensionality `e`: the source addresses axis `d - e`, i.e. offset
`-(d - e) - 1 = e - d - 1` from the right. -/
def offOf (d : ℤ) (e : ℕ) : ℕ := ((e : ℤ) - d - 1).toNat

/-- The tensor's shape as a Python-style left-to-right list of axis lengths. -/
def Tensor.shapeList (t : Tensor) : List ℕ :=
  (List.range t.rank).map fun i => t.size (t.rank - 1 - i)

/-- Well-formedness: the data function only depends on the coordinates below
the rank (a real `torch.Tensor` stores nothing else). -/
def Tensor.WF (t : Tensor) : Prop :=
  ∀ ix ix' : ℕ → ℕ, (∀ i, i < t.rank → ix i = ix' i) → t.data ix = t.data ix'

/-- `torch.Tensor.index_select(dim, idxs)`: same rank, the targeted axis is
replaced by one position per entry of `idxs`, reading entry `j` of the new
axis from position `idxs[j]` of the old axis. -/
def Tensor.index_select (t : Tensor) (d : ℤ) (idxs : List ℕ) : Tensor :=
  let a : ℕ := if d < 0 then (-d).toNat - 1 else t.rank - 1 - d.toNat
  { rank := t.rank
    size := fun i => if i = a then idxs.length else t.size i
    data := fun ix => t.data fun i => if i = a then idxs.getD (ix a) 0 else ix i }

/-- `sorted(indices)` on a Python set: the ascending, duplicate-free
enumeration of the finite set. -/
def sortFin (s : Finset ℕ) : List ℕ := s.sort (· ≤ ·)

/-- `_gather_tensor` (internals.py lines 37-60): fold over the pairs of the
index set; for each `(name, indices)` the target dimension is
`name_to_dim[name] - event_dim`; skip when the tensor has too few axes or the
axis has length 1, otherwise `index_select` the sorted indices. -/
def gatherTensor (v : Tensor) (ixs : IndexSet) (e : ℕ) (m : NameToDim) : Tensor :=
  match ixs with
  | [] => v
  | (name, s) :: rest =>
      let d : ℤ := lookupDim m name - e
      let v' := if (v.rank : ℤ) < -d ∨ v.shapeAt d = 1 then v
                else v.index_select d (sortFin s)
      gatherTensor v' rest e m

/-- Torch `==` between broadcast-compatible tensors evaluates to all-`True`:
the shapes are compatible axis-by-axis and at every position of the broadcast
shape the two (broadcast-clamped) entries agree. -/
def elemEqBC (a b : Tensor) : Prop :=
  (∀ i, a.sizeAt i = 1 ∨ b.sizeAt i = 1 ∨ a.sizeAt i = b.sizeAt i) ∧
  ∀ ix : ℕ → ℕ, (∀ i, ix i < max (a.sizeAt i) (b.sizeAt i)) →
    a.data (fun i => if a.sizeAt i = 1 then 0 else ix i) =
      b.data (fun i => if b.sizeAt i = 1 then 0 else ix i)

/-- Python indexing `s[d]` of a shape tuple by a signed index (`d < 0` counts
from the right); out-of-range reads (a Python error) return 0 and are guarded
by hypotheses wherever they could occur. -/
def shapeGetI (s : List ℕ) (d : ℤ) : ℕ :=
  if d < 0 then s.getD (s.length - (-d).toNat) 0 else s.getD d.toNat 0

/-- `_indices_of_shape` (internals.py lines 171-185): trim `event_dim`
trailing axes, then for each `(name, dim)` of `name_to_dim` include
`range(shape[dim])` under `name` whenever `-dim <= len(shape)` and
`shape[dim] > 1`. -/
def indicesOfShape (s : List ℕ) (e : ℕ) (m : NameToDim) : IndexSet :=
  let s' := s.take (s.length - e)
  m.filterMap fun p =>
    if -p.2 ≤ (s'.length : ℤ) ∧ 1 < shapeGetI s' p.2 then
      some (p.1, Finset.range (shapeGetI s' p.2))
    else none

/-- `_indices_of_number` (internals.py lines 149-151): returns the empty
`IndexSet` unconditionally.  Modelled in `Except` so that the absence of any
raised error is part of the statement: the body performs no check on
`event_dim` (unlike `_gather_number`, which asserts `event_dim in (None, 0)`),
so the result is `ok` for every `event_dim`. -/
def indicesOfNumber (value : ℤ) (event_dim : Option ℤ) (m : NameToDim) :
    Except String IndexSet :=
  Except.ok []

/-- `_indices_of_bool` (internals.py lines 154-156): identical to
`_indices_of_number`, returns the empty `IndexSet` with no check raised. -/
def indicesOfBool (value : Bool) (event_dim : Option ℤ) (m : NameToDim) :
    Except String IndexSet :=
  Except.ok []

/-- Lookup of the index set stored under a name, empty when absent. -/
def getSet (b : IndexSet) (n : Name) : Finset ℕ := (b.lookup n).getD ∅

/-- Modelled from the spec (the `IndexSet.union` implementation lives in
`causal_pyro/indexed/ops.py`, which is not part of the excerpt): the union of
two index sets merges by key-wise set union, omitting keys whose merged set is
empty; keys of the first argument keep their order, new keys of the second
follow. -/
def unionIS (a b : IndexSet) : IndexSet :=
  ((a.map fun p => (p.1, p.2 ∪ getSet b p.1)) ++
      b.filter fun p => (a.lookup p.1).isNone).filter
    fun p => p.2 ≠ ∅

/-- Modelled from the spec: the n-ary `union(*indexsets)` folds the binary
union over its arguments. -/
def unionAll (l : List IndexSet) : IndexSet := l.foldl unionIS []

/-- One broadcast axis: torch broadcasting of two axis lengths (length 1
yields the other length, equal lengths stand, anything else is an error). -/
def bdim (x y : ℕ) : Option ℕ :=
  if x = 1 then some y else if y = 1 then some x else if x = y then some x else none

/-- Broadcast of two reversed (right-aligned) shapes. -/
def bcastRev : List ℕ → List ℕ → Option (List ℕ)
  | [], ys => some ys
  | xs, [] => some xs
  | x :: xs, y :: ys => do
      let z ← bdim x y
      let zs ← bcastRev xs ys
      pure (z :: zs)

/-- `torch.broadcast_shapes` on two shapes (right-aligned; `none` models the
error raised on incompatible axis lengths). -/
def broadcastShapes (a b : List ℕ) : Option (List ℕ) :=
  (bcastRev a.reverse b.reverse).map List.reverse

/-- The broadcast-aware axis length of a (left-to-right) shape list at offset
`i` from the right, 1 beyond its length. -/
def listSizeAt (sh : List ℕ) (i : ℕ) : ℕ :=
  if i < sh.length then sh.getD (sh.length - 1 - i) 1 else 1

/-- `value.new_zeros(shape)`: a zero-filled tensor of the given (left-to-right)
shape list. -/
def zerosOf (sh : List ℕ) : Tensor :=
  { rank := sh.length
    size := fun i => sh.getD (sh.length - 1 - i) 1
    data := fun _ => 0 }

/-- Python list assignment `s[d] = v` with a signed index (`d < 0` counts from
the right); out-of-range writes (a Python error) are dropped and guarded by
hypotheses wherever they could occur. -/
def setI (s : List ℕ) (d : ℤ) (v : ℕ) : List ℕ :=
  if d < 0 then s.set (s.length - (-d).toNat) v else s.set d.toNat v

/-- `get_index_plates()[name]` lookup in the registry. -/
def plateFind (plates : List Plate) (n : Name) : Option Plate :=
  plates.find? fun p => p.name = n

/-- `get_index_plates()[name].size`; 0 is the (guarded) junk value for the
Python `KeyError` on an unregistered name. -/
def plateSizeOf (plates : List Plate) (n : Name) : ℕ :=
  ((plateFind plates n).map Plate.size).getD 0

/-- One step of the index-override loop at internals.py lines 139-143: when
the target axis of `result` has length greater than 1, the identity `arange`
index of the axis at offset `-(name_to_dim[name] - event_dim) - 1` from the
right is replaced by the sorted list of requested indices. -/
def ovStep (r : Tensor) (e : ℕ) (m : NameToDim) (f : ℕ → Option (List ℕ))
    (p : Name × Finset ℕ) : ℕ → Option (List ℕ) :=
  let d : ℤ := lookupDim m p.1 - e
  if 1 < r.shapeAt d then
    fun a => if (a : ℤ) = -d - 1 then some (sortFin p.2) else f a
  else f

/-- The index override built by the loop at internals.py lines 139-143, one
`ovStep` per `(name, indices)` entry of the (merged) index set; later entries
overwrite earlier ones on the same axis, as list assignment does. -/
def ovOf (r : Tensor) (ixs : IndexSet) (e : ℕ) (m : NameToDim) :
    ℕ → Option (List ℕ) :=
  ixs.foldl (ovStep r e m) fun _ => none

/-- Whether a position of `result` is addressed by the advanced index tuple:
every overridden axis must carry one of the listed indices (axes keeping their
identity `arange` address every in-range position). -/
def addressed (rank : ℕ) (ov : ℕ → Option (List ℕ)) (ix : ℕ → ℕ) : Bool :=
  (List.range rank).all fun i =>
    match ov i with
    | some l => l.contains (ix i)
    | none => true

/-- The source position in the assigned value corresponding to an addressed
position of `result`: along an overridden axis the coordinate is the rank of
the selected index inside the sorted index list, elsewhere it is unchanged. -/
def ovApply (ov : ℕ → Option (List ℕ)) (ix : ℕ → ℕ) : ℕ → ℕ := fun i =>
  match ov i with
  | some l => l.indexOf (ix i)
  | none => ix i

/-- Reading the assigned value under torch assignment broadcasting: axes of
length 1 (including all axes above the rank) are clamped to coordinate 0. -/
def bcastRead (t : Tensor) (j : ℕ → ℕ) : ℤ :=
  t.data fun i => if t.sizeAt i = 1 then 0 else j i

/-- The scatter-write `result[tuple(index)] = value` (internals.py line 145):
addressed positions receive the broadcast value at the mapped source position,
all other positions keep the entries of `result`. -/
def scatterWrite (r : Tensor) (ov : ℕ → Option (List ℕ)) (v : Tensor) : Tensor :=
  { rank := r.rank
    size := r.size
    data := fun ix =>
      if addressed r.rank ov ix then bcastRead v (ovApply ov ix) else r.data ix }

/-- One step of the result-shape loop at internals.py lines 129-130: the axis
`name_to_dim[name] - event_dim` of the shape under construction is set to the
total registered size of the plate of `name`. -/
def rsStep (plates : List Plate) (e : ℕ) (m : NameToDim) (s : List ℕ)
    (p : Name × Finset ℕ) : List ℕ :=
  setI s (lookupDim m p.1 - e) (plateSizeOf plates p.1)

/-- `_scatter_tensor` (internals.py lines 101-146): re-gather the value, merge
the requested index set with the indices the re-gathered value carries,
allocate a zero accumulator when none is supplied (shape = broadcast of the
value shape against ones forcing every registered plate axis to exist, then
each named axis set to the total registered plate size), and perform the
indexed write. -/
def scatterTensor (plates : List Plate) (v : Tensor) (ixs : IndexSet)
    (result? : Option Tensor) (e : ℕ) (m : NameToDim) : Tensor :=
  let v' := gatherTensor v ixs e m
  let ixs' := unionIS ixs (indicesOfShape v'.shapeList e m)
  let r := match result? with
    | some r => r
    | none =>
        let k : ℕ := ((plates.map fun p => (e : ℤ) - p.dim).foldl max 0).toNat
        let rs0 := (broadcastShapes v'.shapeList (List.replicate k 1)).getD []
        let rs := ixs'.foldl (rsStep plates e m) rs0
        zerosOf rs
  scatterWrite r (ovOf r ixs' e m) v'

/-- The merged index set computed by `_scatter_tensor` (internals.py lines
116-119): the requested index set united with the indices carried by the
re-gathered value; the indexed write addresses the result through this set. -/
def mergedIS (v : Tensor) (ixs : IndexSet) (e : ℕ) (m : NameToDim) : IndexSet :=
  unionIS ixs (indicesOfShape (gatherTensor v ixs e m).shapeList e m)

/-- A key of the partitioned-value mapping passed to `scatter`: Python allows
any object, the assertion accepts only `IndexSet` instances. -/
inductive SKey where
  | ixs (i : IndexSet)
  | notIndexSet
deriving DecidableEq

/-- Whether the key is an `IndexSet` (the `isinstance` test of the assert). -/
def SKey.isIxs : SKey → Bool
  | .ixs _ => true
  | .notIndexSet => false

/-- The underlying index set of a key (junk for a non-`IndexSet` key, which
the assertion has already rejected). -/
def SKey.getIxs : SKey → IndexSet
  | .ixs i => i
  | .notIndexSet => []

/-- `_scatter_dict` (internals.py lines 63-79): assert the mapping is
non-empty and all keys are `IndexSet`s, register the union of the keys via
`add_indices`, then fold `scatter` over the partitions threading the
accumulator.  The first component logs the `add_indices` invocations, so the
error branches show that no registration happened before the failed assert. -/
def scatterDict (plates : List Plate) (pv : List (SKey × Tensor))
    (result? : Option Tensor) (e : ℕ) (m : NameToDim) :
    List IndexSet × Except String (Option Tensor) :=
  if pv.length = 0 then
    ([], Except.error "assert len(partitioned_values) > 0 failed")
  else if pv.all (fun p => p.1.isIxs) then
    ([unionAll (pv.map fun p => p.1.getIxs)],
      Except.ok (pv.foldl
        (fun r p => some (scatterTensor plates p.2 p.1.getIxs r e m)) result?))
  else
    ([], Except.error "assert all keys are IndexSet failed")

end CausalPyro

namespace Chirho

/-- The record of one iteration of the interruption event loop: the active
(non-suppressed) interruption handlers seen by the discovery and integration
phases, the terminal interruptions returned by discovery, the integration
span, and the interruptions live during the effect phase. -/
structure Step where
  active : List ℕ
  terminal : List ℕ
  t0 : ℤ
  t1 : ℤ
  live : List ℕ
deriving DecidableEq, Repr

/-- The solver collaborator interface of the event loop
(`get_next_interruptions`, `simulate_to_interruption`,
`apply_interruptions`).  Each operation receives the list of interruption
handlers that are not suppressed by the surrounding `block_messengers`
context, mirroring that suppression hides handlers from the effect runtime. -/
structure SolverEnv (D S : Type) where
  nextInterruptions : List ℕ → D → S → ℤ → ℤ → List ℕ × ℤ
  simulateToInterruption : List ℕ → D → S → ℤ → ℤ → S
  applyInterruptions : List ℕ → D → S → D × S

/-- `InterruptionEventLoop._pyro_simulate` (event_loop.py lines 29-54):
while `start_time < end_time`, (1) with the loop itself and every used
interruption blocked, query the next interruptions and integrate to their
fire time, then mark each terminal interruption used; (2) with every
non-firing interruption blocked, apply interruption effects to dynamics and
state.  `ints` is the list of interruption handlers installed around the
loop, `used` the identities whose `used` flag is set.  The Python `while` has
no bound, so the model carries fuel and returns `none` when it runs out; each
iteration is logged as a `Step`. -/
def eventLoopGo (env : SolverEnv D S) (ints : List ℕ) :
    ℕ → D → S → ℤ → ℤ → List ℕ → Option (S × List Step)
  | 0, _, state, startTime, endTime, _ =>
      if startTime < endTime then none else some (state, [])
  | fuel + 1, dynamics, state, startTime, endTime, used =>
      if startTime < endTime then
        let active := ints.filter fun i => !used.contains i
        let disc := env.nextInterruptions active dynamics state startTime endTime
        let state' := env.simulateToInterruption active dynamics state
          startTime disc.2
        let used' := used ++ disc.1
        let live := ints.filter fun i => disc.1.contains i
        let ds := env.applyInterruptions live dynamics state'
        (eventLoopGo env ints fuel ds.1 ds.2 disc.2 endTime used').map
          fun r => (r.1, ⟨active, disc.1, startTime, disc.2, live⟩ :: r.2)
      else some (state, [])

/-- The simulation entry point: the loop starts with no used interruption
(fresh `Interruption` handlers have `used = False`) and the final state is
returned as the value of the simulate message. -/
def simulateLoop (env : SolverEnv D S) (ints : List ℕ) (fuel : ℕ) (d : D)
    (st : S) (t0 t1 : ℤ) : Option (S × List Step) :=
  eventLoopGo env ints fuel d st t0 t1 []

/-- A concrete solver used as a test fixture: interruption 0 fires at time 2
and interruption 1 at time 5 (each only while its handler is still active),
integration adds the elapsed time to the state, and each effect phase adds
1000 per live interruption. -/
def twoFireEnv : SolverEnv ℤ ℤ where
  nextInterruptions a _ _ _ t1 :=
    if a.contains 0 then ([0], 2) else if a.contains 1 then ([1], 5) else ([], t1)
  simulateToInterruption _ _ s t0 t1 := s + (t1 - t0)
  applyInterruptions live d s := (d, s + 1000 * live.length)

/-- The step log produced by running `twoFireEnv` over `[0, 10]`. -/
def twoFireSteps : List Step :=
  [⟨[0, 1], [0], 0, 2, [0]⟩, ⟨[1], [1], 2, 5, [1]⟩, ⟨[], [], 5, 10, []⟩]

end Chirho

namespace CausalPyro

/-- A concrete two-plate name→dim map used as a test fixture. -/
def mab : NameToDim := [("a", -1), ("b", -2)]

/-- A concrete scalar (rank-0) tensor with entry 42, used as a test fixture. -/
def vScalar : Tensor := ⟨0, fun _ => 1, fun _ => 42⟩

/-- A concrete rank-1 accumulator of length 3, used as a test fixture. -/
def rFix : Tensor := ⟨1, fun _ => 3, fun ix => (ix 0 : ℤ) * 10⟩

/-- A concrete index set selecting index 1 of world `a`. -/
def iA1 : IndexSet := [("a", {1})]

end CausalPyro

namespace CausalPyro

theorem sizeAt_of_rank_le {t : Tensor} {i : ℕ} (h : t.rank ≤ i) :
    t.sizeAt i = 1 := by
  simp [Tensor.sizeAt, Nat.not_lt.mpr h]

theorem shapeAt_dim (t : Tensor) (d : ℤ) (e : ℕ) (hd : d < 0) :
    t.shapeAt (d - e) = t.sizeAt (offOf d e) := by
  have h1 : d - (e : ℤ) < 0 := by omega
  simp only [Tensor.shapeAt, if_pos h1, offOf]
  congr 1
  omega

/-- C10: for every tensor `v`, every `event_dim`, and every `name_to_dim`
map, `gather(v, IndexSet())` with the empty IndexSet is the identity: it
returns `v` itself, unchanged, performing no selection and raising no
error. -/
theorem gather_empty_identity (v : Tensor) (e : ℕ) (m : NameToDim) :
    gatherTensor v [] e m = v := rfl

/-- C4 counterexample: at the concrete scalar 5 (and boolean `true`) with
`event_dim = 2`, `indices_of` returns the empty IndexSet with no error, so
the claim that any nonzero `event_dim` fails with an invalid-argument error
is false: the handlers at internals.py lines 149-156 ignore their keyword
arguments entirely. -/
theorem indices_of_scalar_nonzero_event_dim_returns :
    indicesOfNumber 5 (some 2) [] = Except.ok [] ∧
      indicesOfBool true (some 2) [] = Except.ok [] :=
  ⟨rfl, rfl⟩

/-- C4 (amended): for every number or boolean value and every `event_dim`
(zero, nonzero, or absent), `indices_of` returns the empty IndexSet and
raises no error. -/
theorem indices_of_scalar_total (x : ℤ) (b : Bool) (e : Option ℤ)
    (m : NameToDim) :
    indicesOfNumber x e m = Except.ok [] ∧ indicesOfBool b e m = Except.ok [] :=
  ⟨rfl, rfl⟩

/-- C5: for every partitioned-value mapping passed to `scatter`, if the
mapping is empty or any of its keys is not an IndexSet, `scatter` fails with
an assertion-style error before performing any state mutation: the
`add_indices` log of the result is empty and the outcome is an error, so no
partition was scattered into the accumulator and the registry is untouched. -/
theorem scatter_dict_precondition_failure (plates : List Plate)
    (pv : List (SKey × Tensor)) (result? : Option Tensor) (e : ℕ)
    (m : NameToDim) (h : pv = [] ∨ ∃ p ∈ pv, p.1.isIxs = false) :
    (scatterDict plates pv result? e m).1 = [] ∧
      ∃ msg, (scatterDict plates pv result? e m).2 = Except.error msg := by
  rcases h with h | ⟨p, hp, hfalse⟩
  · subst h
    exact ⟨rfl, _, rfl⟩
  · have hne : pv.length ≠ 0 := by
      intro h0
      rw [List.length_eq_zero] at h0
      subst h0
      simp at hp
    have hall : pv.all (fun q => q.1.isIxs) = false := by
      rw [List.all_eq_false]
      exact ⟨p, hp, by simp [hfalse]⟩
    simp only [scatterDict, if_neg hne, hall]
    exact ⟨rfl, _, rfl⟩

theorem lookup_filterMap_of_ne (F : Name × ℤ → Option (Name × Finset ℕ))
    (hF : ∀ p q, F p = some q → q.1 = p.1) :
    ∀ (m : NameToDim) (name : Name), (∀ p ∈ m, p.1 ≠ name) →
      (m.filterMap F).lookup name = none := by
  intro m
  induction m with
  | nil => intro name h; rfl
  | cons p rest ih =>
    intro name h
    rw [List.filterMap_cons]
    cases hFp : F p with
    | none => exact ih name fun q hq => h q (List.mem_cons_of_mem p hq)
    | some q =>
      have hq1 : q.1 = p.1 := hF p q hFp
      have hne : p.1 ≠ name := h p (List.mem_cons_self p rest)
      have : (name == q.1) = false := by
        rw [beq_eq_false_iff_ne]
        rw [hq1]
        exact fun hc => hne hc.symm
      rw [show q = (q.1, q.2) from rfl, List.lookup_cons, this]
      exact ih name fun r hr => h r (List.mem_cons_of_mem p hr)

theorem lookup_filterMap_eq (F : Name × ℤ → Option (Name × Finset ℕ))
    (hF : ∀ p q, F p = some q → q.1 = p.1) :
    ∀ (m : NameToDim) (name : Name) (d : ℤ), (m.map Prod.fst).Nodup →
      m.lookup name = some d →
      (m.filterMap F).lookup name = (F (name, d)).map Prod.snd := by
  intro m
  induction m with
  | nil => intro name d _ h; simp at h
  | cons p rest ih =>
    intro name d hnd hlk
    rw [List.map_cons, List.nodup_cons] at hnd
    rw [show p = (p.1, p.2) from rfl, List.lookup_cons] at hlk
    rw [List.filterMap_cons]
    rcases hbeq : name == p.1 with _ | _
    · rw [hbeq] at hlk
      have hne : p.1 ≠ name := by
        intro hc
        rw [hc] at hbeq
        simp at hbeq
      cases hFp : F p with
      | none =>
        exact ih name d hnd.2 hlk
      | some q =>
        have hq1 : q.1 = p.1 := hF p q hFp
        have hb : (name == q.1) = false := by
          rw [beq_eq_false_iff_ne, hq1]
          exact fun hc => hne hc.symm
        rw [show q = (q.1, q.2) from rfl, List.lookup_cons, hb]
        exact ih name d hnd.2 hlk
    · rw [hbeq] at hlk
      have heq : name = p.1 := beq_iff_eq.mp hbeq
      have hd : p.2 = d := by simpa using hlk
      have hrest : ∀ r ∈ rest, r.1 ≠ name := by
        intro r hr hc
        exact hnd.1 (heq ▸ hc ▸ List.mem_map_of_mem Prod.fst hr)
      have hpnd : (name, d) = p := by
        rw [heq, ← hd]
      rw [← hpnd]
      cases hFp : F (name, d) with
      | none => simpa using lookup_filterMap_of_ne F hF rest name hrest
      | some q =>
        have hq1 : q.1 = name := hF (name, d) q hFp
        rw [show q = (q.1, q.2) from rfl, List.lookup_cons]
        rw [show (name == q.1) = true from by simp [hq1]]
        rfl

/-- C3: `indices_of` on a shape first trims the `event_dim` trailing axes,
then returns an IndexSet holding `name -> range(axis length)` exactly for the
`(name, dim)` entries of `name_to_dim` whose axis exists in the trimmed shape
(`-dim <= len`) and has length above 1; names without such an entry are
absent, and a shape whose named-plate axes all have length at most 1 yields
the empty IndexSet no matter how many plates are registered. -/
theorem indices_of_shape_spec (s : List ℕ) (e : ℕ) (m : NameToDim)
    (hm : (m.map Prod.fst).Nodup) :
    (∀ name d, m.lookup name = some d →
      (indicesOfShape s e m).lookup name =
        (if -d ≤ ((s.take (s.length - e)).length : ℤ) ∧
            1 < shapeGetI (s.take (s.length - e)) d then
          some (Finset.range (shapeGetI (s.take (s.length - e)) d))
        else none)) ∧
    (∀ name, (∀ p ∈ m, p.1 ≠ name) →
      (indicesOfShape s e m).lookup name = none) ∧
    ((∀ p ∈ m, shapeGetI (s.take (s.length - e)) p.2 ≤ 1) →
      indicesOfShape s e m = []) := by
  have hF : ∀ (p : Name × ℤ) (q : Name × Finset ℕ),
      (if -p.2 ≤ ((s.take (s.length - e)).length : ℤ) ∧
          1 < shapeGetI (s.take (s.length - e)) p.2 then
        some (p.1, Finset.range (shapeGetI (s.take (s.length - e)) p.2))
      else none) = some q → q.1 = p.1 := by
    intro p q hq
    split at hq
    · cases hq
      rfl
    · cases hq
  refine ⟨?_, ?_, ?_⟩
  · intro name d hlk
    have h := lookup_filterMap_eq _ hF m name d hm hlk
    rw [show indicesOfShape s e m = m.filterMap
        (fun p => if -p.2 ≤ ((s.take (s.length - e)).length : ℤ) ∧
            1 < shapeGetI (s.take (s.length - e)) p.2 then
          some (p.1, Finset.range (shapeGetI (s.take (s.length - e)) p.2))
        else none) from rfl]
    rw [h]
    by_cases hc : -d ≤ ((s.take (s.length - e)).length : ℤ) ∧
        1 < shapeGetI (s.take (s.length - e)) d
    · simp [hc]
    · simp [hc]
  · intro name hname
    exact lookup_filterMap_of_ne _ hF m name hname
  · intro hall
    rw [show indicesOfShape s e m = m.filterMap
        (fun p => if -p.2 ≤ ((s.take (s.length - e)).length : ℤ) ∧
            1 < shapeGetI (s.take (s.length - e)) p.2 then
          some (p.1, Finset.range (shapeGetI (s.take (s.length - e)) p.2))
        else none) from rfl]
    rw [List.filterMap_eq_nil_iff]
    intro p hp
    have := hall p hp
    rw [if_neg]
    intro hc
    omega

/-- C3 witness: the shape `[1, 1, 5]` with one event axis under the two
registered plates of `mab` has every named axis of length 1 after trimming,
so the returned IndexSet is empty and every per-name lookup is `none`. -/
theorem indices_of_shape_spec_witness :
    (mab.map Prod.fst).Nodup ∧
      ((∀ name d, mab.lookup name = some d →
        (indicesOfShape [1, 1, 5] 1 mab).lookup name =
          (if -d ≤ ((([1, 1, 5] : List ℕ).take ([1, 1, 5].length - 1)).length : ℤ) ∧
              1 < shapeGetI (([1, 1, 5] : List ℕ).take ([1, 1, 5].length - 1)) d then
            some (Finset.range
              (shapeGetI (([1, 1, 5] : List ℕ).take ([1, 1, 5].length - 1)) d))
          else none)) ∧
      (∀ name, (∀ p ∈ mab, p.1 ≠ name) →
        (indicesOfShape [1, 1, 5] 1 mab).lookup name = none) ∧
      ((∀ p ∈ mab,
          shapeGetI (([1, 1, 5] : List ℕ).take ([1, 1, 5].length - 1)) p.2 ≤ 1) →
        indicesOfShape [1, 1, 5] 1 mab = [])) :=
  ⟨by decide, indices_of_shape_spec [1, 1, 5] 1 mab (by decide)⟩

/-- C2: `gather` processes each `(name, indices)` pair of the index set at
target axis `name_to_dim[name] - event_dim`: when the tensor has too few axes
for that axis or the axis has length 1, the pair leaves the tensor untouched
and no error is raised; otherwise it selects along that axis exactly the
sorted, duplicate-free requested indices (the resulting axis length is the
number of distinct requested indices, the selection list is strictly
ascending, other axes are untouched, and entry `j` of the new axis reads the
entry of the old axis at the `j`-th smallest requested index). -/
theorem gather_pair_semantics (v : Tensor) (name : Name) (s : Finset ℕ)
    (rest : IndexSet) (e : ℕ) (m : NameToDim) (d : ℤ)
    (hd : m.lookup name = some d) (hneg : d < 0) :
    ((((v.rank : ℤ) < -(d - e)) ∨ v.shapeAt (d - e) = 1) →
        gatherTensor v ((name, s) :: rest) e m = gatherTensor v rest e m) ∧
    (¬(((v.rank : ℤ) < -(d - e)) ∨ v.shapeAt (d - e) = 1) →
        gatherTensor v ((name, s) :: rest) e m =
          gatherTensor (v.index_select (d - e) (sortFin s)) rest e m ∧
        (v.index_select (d - e) (sortFin s)).shapeAt (d - e) = s.card ∧
        (∀ i, i ≠ offOf d e →
          (v.index_select (d - e) (sortFin s)).sizeAt i = v.sizeAt i) ∧
        (sortFin s).Sorted (· < ·) ∧
        ∀ ix : ℕ → ℕ,
          (v.index_select (d - e) (sortFin s)).data ix =
            v.data fun i =>
              if i = offOf d e then (sortFin s).getD (ix (offOf d e)) 0 else ix i) := by
  have hde : d - (e : ℤ) < 0 := by omega
  have haxis : (if (d - (e : ℤ)) < 0 then (-(d - (e : ℤ))).toNat - 1
      else v.rank - 1 - (d - (e : ℤ)).toNat) = offOf d e := by
    rw [if_pos hde, offOf]
    omega
  constructor
  · intro hskip
    simp only [gatherTensor, lookupDim, hd, Option.getD_some, if_pos hskip]
  · intro hsel
    have hrank : (e : ℤ) - d ≤ v.rank := by
      rcases not_or.mp hsel with ⟨h1, -⟩
      omega
    have haxlt : offOf d e < v.rank := by
      rw [offOf]
      omega
    refine ⟨?_, ?_, ?_, ?_, ?_⟩
    · simp only [gatherTensor, lookupDim, hd, Option.getD_some, if_neg hsel]
    · rw [Tensor.shapeAt, if_pos hde]
      show (v.index_select (d - e) (sortFin s)).sizeAt ((-(d - (e:ℤ))).toNat - 1) = s.card
      rw [Tensor.sizeAt]
      have : (-(d - (e:ℤ))).toNat - 1 = offOf d e := by rw [offOf]; omega
      rw [this]
      rw [if_pos (by simpa [Tensor.index_select] using haxlt)]
      simp only [Tensor.index_select, haxis]
      simp [sortFin, Finset.length_sort]
    · intro i hi
      simp only [Tensor.index_select, Tensor.sizeAt, haxis]
      rw [if_neg hi]
    · exact Finset.sort_sorted_lt s
    · intro ix
      simp only [Tensor.index_select, haxis]

/-- C2 witness: on a rank-1 tensor of length 4 gathered at `a -> {0, 2}`
(plate dimension -1, `event_dim` 0), the skip conditions fail and the result
selects the ascending indices `[0, 2]`, with axis length 2. -/
theorem gather_pair_semantics_witness :
    (mab.lookup "a" = some (-1) ∧ (-1 : ℤ) < 0) ∧
    ((((((⟨1, fun _ => 4, fun ix => (ix 0 : ℤ)⟩ : Tensor).rank : ℤ) <
          -((-1 : ℤ) - (0 : ℕ))) ∨
        (⟨1, fun _ => 4, fun ix => (ix 0 : ℤ)⟩ : Tensor).shapeAt ((-1 : ℤ) - (0 : ℕ)) = 1) →
        gatherTensor ⟨1, fun _ => 4, fun ix => (ix 0 : ℤ)⟩
            [("a", ({0, 2} : Finset ℕ))] 0 mab =
          gatherTensor ⟨1, fun _ => 4, fun ix => (ix 0 : ℤ)⟩ [] 0 mab) ∧
      (¬((((⟨1, fun _ => 4, fun ix => (ix 0 : ℤ)⟩ : Tensor).rank : ℤ) <
          -((-1 : ℤ) - (0 : ℕ))) ∨
        (⟨1, fun _ => 4, fun ix => (ix 0 : ℤ)⟩ : Tensor).shapeAt ((-1 : ℤ) - (0 : ℕ)) = 1) →
        gatherTensor ⟨1, fun _ => 4, fun ix => (ix 0 : ℤ)⟩
            [("a", ({0, 2} : Finset ℕ))] 0 mab =
          gatherTensor ((⟨1, fun _ => 4, fun ix => (ix 0 : ℤ)⟩ : Tensor).index_select
            ((-1 : ℤ) - (0 : ℕ)) (sortFin {0, 2})) [] 0 mab ∧
        ((⟨1, fun _ => 4, fun ix => (ix 0 : ℤ)⟩ : Tensor).index_select
            ((-1 : ℤ) - (0 : ℕ)) (sortFin {0, 2})).shapeAt ((-1 : ℤ) - (0 : ℕ)) =
          ({0, 2} : Finset ℕ).card ∧
        (∀ i, i ≠ offOf (-1) 0 →
          ((⟨1, fun _ => 4, fun ix => (ix 0 : ℤ)⟩ : Tensor).index_select
              ((-1 : ℤ) - (0 : ℕ)) (sortFin {0, 2})).sizeAt i =
            (⟨1, fun _ => 4, fun ix => (ix 0 : ℤ)⟩ : Tensor).sizeAt i) ∧
        (sortFin {0, 2}).Sorted (· < ·) ∧
        ∀ ix : ℕ → ℕ,
          ((⟨1, fun _ => 4, fun ix => (ix 0 : ℤ)⟩ : Tensor).index_select
              ((-1 : ℤ) - (0 : ℕ)) (sortFin {0, 2})).data ix =
            (⟨1, fun _ => 4, fun ix => (ix 0 : ℤ)⟩ : Tensor).data fun i =>
              if i = offOf (-1) 0 then (sortFin {0, 2}).getD (ix (offOf (-1) 0)) 0
              else ix i)) :=
  ⟨⟨by decide, by decide⟩,
    gather_pair_semantics ⟨1, fun _ => 4, fun ix => (ix 0 : ℤ)⟩ "a" {0, 2} [] 0 mab
      (-1) (by decide) (by decide)⟩

theorem mem_of_lookup {β : Type} {l : List (Name × β)} {a : Name} {b : β}
    (h : l.lookup a = some b) : (a, b) ∈ l := by
  induction l with
  | nil => simp at h
  | cons p rest ih =>
    rw [show p = (p.1, p.2) from rfl, List.lookup_cons] at h
    rcases hbeq : a == p.1 with _ | _
    · rw [hbeq] at h
      exact List.mem_cons_of_mem _ (ih h)
    · rw [hbeq] at h
      have ha : a = p.1 := beq_iff_eq.mp hbeq
      have hb : p.2 = b := by simpa using h
      rw [show (a, b) = p from by rw [ha, ← hb]]
      exact List.mem_cons_self p rest

theorem gather_skip_all (v : Tensor) (e : ℕ) (m : NameToDim) :
    ∀ ixs : IndexSet,
      (∀ p ∈ ixs, ∃ d, m.lookup p.1 = some d ∧
        (((v.rank : ℤ) < -(d - e)) ∨ v.shapeAt (d - e) = 1)) →
      gatherTensor v ixs e m = v := by
  intro ixs
  induction ixs with
  | nil => intro h; rfl
  | cons p rest ih =>
    intro h
    obtain ⟨d, hd, hskip⟩ := h p (List.mem_cons_self p rest)
    show gatherTensor v (p :: rest) e m = v
    rw [show p = (p.1, p.2) from rfl]
    simp only [gatherTensor, lookupDim, hd, Option.getD_some, if_pos hskip]
    exact ih fun q hq => h q (List.mem_cons_of_mem p hq)

theorem shapeList_length (v : Tensor) : v.shapeList.length = v.rank := by
  simp [Tensor.shapeList]

theorem shapeList_getD (v : Tensor) (j : ℕ) (hj : j < v.rank) :
    v.shapeList.getD j 0 = v.size (v.rank - 1 - j) := by
  rw [Tensor.shapeList, List.getD_eq_getElem?_getD, List.getElem?_map,
    List.getElem?_range hj]
  rfl

theorem shapeGetI_trim (v : Tensor) (e : ℕ) (d : ℤ) (hd : d < 0)
    (hin : (-d).toNat ≤ v.rank - e) :
    shapeGetI (v.shapeList.take (v.shapeList.length - e)) d =
      v.sizeAt (offOf d e) := by
  have hK : 1 ≤ (-d).toNat := by omega
  have he : e < v.rank := by omega
  have hlen : (v.shapeList.take (v.shapeList.length - e)).length = v.rank - e := by
    rw [List.length_take, shapeList_length]
    omega
  rw [shapeGetI, if_pos hd, hlen]
  set j := v.rank - e - (-d).toNat with hj
  have hjlt : j < v.rank - e := by omega
  have hjr : j < v.rank := by omega
  rw [List.getD_eq_getElem?_getD, List.getElem?_take, if_pos (by rw [shapeList_length]; exact hjlt)]
  rw [← List.getD_eq_getElem?_getD _ _ 0, shapeList_getD v j hjr]
  rw [Tensor.sizeAt, if_pos (by rw [offOf]; omega)]
  congr 1
  rw [offOf]
  omega

theorem shapeGetI_trim_out (v : Tensor) (e : ℕ) (d : ℤ) (hd : d < 0)
    (hout : v.rank - e < (-d).toNat) :
    ¬(-d ≤ (((v.shapeList.take (v.shapeList.length - e))).length : ℤ)) := by
  rw [List.length_take, shapeList_length]
  intro hc
  omega

theorem indicesOfShape_tensor_nil (v : Tensor) (e : ℕ) (m : NameToDim)
    (h : ∀ p ∈ m, p.2 < 0 ∧
      (((v.rank : ℤ) < (e : ℤ) - p.2) ∨ v.sizeAt (offOf p.2 e) = 1)) :
    indicesOfShape v.shapeList e m = [] := by
  rw [show indicesOfShape v.shapeList e m = m.filterMap
      (fun p => if -p.2 ≤ ((v.shapeList.take (v.shapeList.length - e)).length : ℤ) ∧
          1 < shapeGetI (v.shapeList.take (v.shapeList.length - e)) p.2 then
        some (p.1, Finset.range
          (shapeGetI (v.shapeList.take (v.shapeList.length - e)) p.2))
      else none) from rfl]
  rw [List.filterMap_eq_nil_iff]
  intro p hp
  obtain ⟨hd, hcase⟩ := h p hp
  by_cases hin : (-p.2).toNat ≤ v.rank - e
  · rw [if_neg]
    intro hc
    obtain ⟨-, hgt⟩ := hc
    rw [shapeGetI_trim v e p.2 hd hin] at hgt
    rcases hcase with h1 | h2
    · omega
    · omega
  · exact if_neg fun hc => shapeGetI_trim_out v e p.2 hd (by omega) hc.1

theorem unionIS_nil_right (a : IndexSet) (h : ∀ p ∈ a, p.2 ≠ ∅) :
    unionIS a [] = a := by
  rw [unionIS]
  simp only [getSet, List.lookup_nil, Option.getD_none, Finset.union_empty,
    List.filter_nil, List.append_nil]
  rw [show (fun (p : Name × Finset ℕ) => (p.1, p.2)) = id from rfl, List.map_id]
  rw [List.filter_eq_self]
  intro p hp
  simpa using h p hp



theorem ovFold_ne (r : Tensor) (e : ℕ) (m : NameToDim) :
    ∀ (ixs : IndexSet) (f : ℕ → Option (List ℕ)) (a : ℕ),
      (∀ p ∈ ixs, 1 < r.shapeAt (lookupDim m p.1 - e) →
        ((a : ℤ) ≠ -(lookupDim m p.1 - e) - 1)) →
      ixs.foldl (ovStep r e m) f a = f a := by
  intro ixs
  induction ixs with
  | nil => intro f a h; rfl
  | cons p rest ih =>
    intro f a h
    rw [List.foldl_cons]
    rw [ih _ a fun q hq => h q (List.mem_cons_of_mem _ hq)]
    simp only [ovStep]
    by_cases hg : 1 < r.shapeAt (lookupDim m p.1 - e)
    · rw [if_pos hg, if_neg (h p (List.mem_cons_self p rest) hg)]
    · rw [if_neg hg]

theorem ovFold_mem (r : Tensor) (e : ℕ) (m : NameToDim) :
    ∀ (ixs : IndexSet) (f : ℕ → Option (List ℕ)) (a : ℕ) (name : Name)
      (s : Finset ℕ),
      (name, s) ∈ ixs →
      1 < r.shapeAt (lookupDim m name - e) →
      ((a : ℤ) = -(lookupDim m name - e) - 1) →
      (∀ q ∈ ixs, q.1 ≠ name → ¬(1 < r.shapeAt (lookupDim m q.1 - e) ∧
        (a : ℤ) = -(lookupDim m q.1 - e) - 1)) →
      (ixs.map Prod.fst).Nodup →
      ixs.foldl (ovStep r e m) f a = some (sortFin s) := by
  intro ixs
  induction ixs with
  | nil => intro f a name s hmem; simp at hmem
  | cons p rest ih =>
    intro f a name s hmem hg ha huniq hnd
    rw [List.map_cons, List.nodup_cons] at hnd
    rw [List.foldl_cons]
    by_cases hq : p.1 = name
    · have hps : p = (name, s) := by
        rcases List.mem_cons.mp hmem with h | h
        · exact h.symm
        · exact absurd (hq ▸ List.mem_map_of_mem Prod.fst h) hnd.1
      have hrest : ∀ q ∈ rest, 1 < r.shapeAt (lookupDim m q.1 - e) →
          ((a : ℤ) ≠ -(lookupDim m q.1 - e) - 1) := by
        intro q hqr hgq hac
        have hqne : q.1 ≠ name := by
          intro hc
          exact hnd.1 (hq ▸ hc ▸ List.mem_map_of_mem Prod.fst hqr)
        exact huniq q (List.mem_cons_of_mem p hqr) hqne ⟨hgq, hac⟩
      rw [ovFold_ne r e m rest _ a hrest]
      simp only [ovStep, hps]
      rw [if_pos hg, if_pos ha]
    · have hmem' : (name, s) ∈ rest := by
        rcases List.mem_cons.mp hmem with h | h
        · exact absurd (by rw [← h]) hq
        · exact h
      exact ih _ a name s hmem' hg ha
        (fun q hqr => huniq q (List.mem_cons_of_mem p hqr)) hnd.2



theorem gather_eq_of_skip (v : Tensor) (ixs : IndexSet) (e : ℕ) (m : NameToDim)
    (hskip : ∀ p ∈ m, p.2 < 0 ∧
      (((v.rank : ℤ) < (e : ℤ) - p.2) ∨ v.shapeAt (p.2 - e) = 1))
    (hnames : ∀ p ∈ ixs, ∃ d, m.lookup p.1 = some d) :
    gatherTensor v ixs e m = v := by
  apply gather_skip_all
  intro p hp
  obtain ⟨d, hd⟩ := hnames p hp
  obtain ⟨hd0, hcase⟩ := hskip (p.1, d) (mem_of_lookup hd)
  refine ⟨d, hd, ?_⟩
  rcases hcase with h | h
  · exact Or.inl (by simp only at h; omega)
  · exact Or.inr h

theorem merged_eq_of_skip (v : Tensor) (ixs : IndexSet) (e : ℕ) (m : NameToDim)
    (hskip : ∀ p ∈ m, p.2 < 0 ∧
      (((v.rank : ℤ) < (e : ℤ) - p.2) ∨ v.shapeAt (p.2 - e) = 1))
    (hnames : ∀ p ∈ ixs, ∃ d, m.lookup p.1 = some d)
    (hne : ∀ p ∈ ixs, p.2 ≠ ∅) :
    unionIS ixs (indicesOfShape (gatherTensor v ixs e m).shapeList e m) = ixs := by
  rw [gather_eq_of_skip v ixs e m hskip hnames]
  rw [indicesOfShape_tensor_nil v e m]
  · exact unionIS_nil_right ixs hne
  · intro p hp
    obtain ⟨hd0, hcase⟩ := hskip p hp
    refine ⟨hd0, ?_⟩
    rcases hcase with h | h
    · exact Or.inl h
    · exact Or.inr (by rw [← shapeAt_dim v p.2 e hd0]; exact h)



theorem mergedIS_fixture : mergedIS vScalar iA1 0 mab = iA1 := by decide

/-- C7: for every tensor value, IndexSet, and supplied accumulator `r`,
`scatter(value, ix, result=r)` updates `r` keeping its shape (the in-place
mutation is modelled functionally) and writes content only at the positions
addressed by the merged index set — along each named axis of `r` of length
above 1 the sorted indices that the merged set holds for that name, identity
along every other axis: every position of `r` not so addressed holds the same
element after the call as before it, and every fully addressed position
receives the re-gathered value content at the sorted-index-mapped source
position.  Proved for every tensor value, with no broadcast restriction; the
hypotheses are the registry and dictionary invariants only: every name of the
merged index set is registered with a negative dimension, the merged set has
duplicate-free keys, and distinct merged names occupy distinct axes. -/
theorem scatter_supplied_result_frame (plates : List Plate) (v : Tensor)
    (ixs : IndexSet) (r : Tensor) (e : ℕ) (m : NameToDim)
    (hd0M : ∀ p ∈ mergedIS v ixs e m, ∃ d, m.lookup p.1 = some d ∧ d < 0)
    (hkeysM : ((mergedIS v ixs e m).map Prod.fst).Nodup)
    (hinjM : ∀ p ∈ mergedIS v ixs e m, ∀ q ∈ mergedIS v ixs e m, p.1 ≠ q.1 →
      lookupDim m p.1 ≠ lookupDim m q.1) :
    (scatterTensor plates v ixs (some r) e m).rank = r.rank ∧
    (scatterTensor plates v ixs (some r) e m).size = r.size ∧
    (∀ ix : ℕ → ℕ,
      (∃ p ∈ mergedIS v ixs e m, ∃ d, m.lookup p.1 = some d ∧
        1 < r.shapeAt (d - e) ∧ ix (offOf d e) ∉ p.2) →
      (scatterTensor plates v ixs (some r) e m).data ix = r.data ix) ∧
    (∀ ix : ℕ → ℕ,
      (∀ p ∈ mergedIS v ixs e m, ∀ d, m.lookup p.1 = some d →
        1 < r.shapeAt (d - e) → ix (offOf d e) ∈ p.2) →
      (scatterTensor plates v ixs (some r) e m).data ix =
        bcastRead (gatherTensor v ixs e m)
          (ovApply (ovOf r (mergedIS v ixs e m) e m) ix)) := by
  have hout : scatterTensor plates v ixs (some r) e m =
      scatterWrite r (ovOf r (mergedIS v ixs e m) e m)
        (gatherTensor v ixs e m) := rfl
  refine ⟨by rw [hout]; rfl, by rw [hout]; rfl, ?_, ?_⟩
  · intro ix hviol
    obtain ⟨p, hp, d, hlkp, hgt, hnotmem⟩ := hviol
    have hd0 : d < 0 := by
      obtain ⟨d2, hlk2, hneg2⟩ := hd0M p hp
      rw [hlkp] at hlk2
      injection hlk2 with h2
      omega
    have hoff_lt : offOf d e < r.rank := by
      by_contra hge
      push_neg at hge
      have h1 : r.shapeAt (d - e) = 1 := by
        rw [shapeAt_dim r d e hd0]
        exact sizeAt_of_rank_le hge
      omega
    have hldp : lookupDim m p.1 = d := by rw [lookupDim, hlkp, Option.getD_some]
    have hov : ovOf r (mergedIS v ixs e m) e m (offOf d e) =
        some (sortFin p.2) := by
      rw [ovOf]
      apply ovFold_mem r e m (mergedIS v ixs e m) _ (offOf d e) p.1 p.2
      · rwa [show (p.1, p.2) = p from rfl]
      · rwa [hldp]
      · rw [hldp, offOf]
        omega
      · intro q hq hqne hand
        obtain ⟨hgq, haq⟩ := hand
        have : lookupDim m q.1 = d := by
          rw [offOf] at haq
          omega
        exact hinjM p hp q hq (fun hc => hqne hc.symm) (by rw [hldp, this])
      · exact hkeysM
    rw [hout]
    show (if addressed r.rank (ovOf r (mergedIS v ixs e m) e m) ix then
        bcastRead (gatherTensor v ixs e m)
          (ovApply (ovOf r (mergedIS v ixs e m) e m) ix)
      else r.data ix) = r.data ix
    rw [if_neg]
    intro haddr
    rw [addressed, List.all_eq_true] at haddr
    have := haddr (offOf d e) (List.mem_range.mpr hoff_lt)
    rw [hov] at this
    have hmem : ix (offOf d e) ∈ sortFin p.2 := List.elem_iff.mp this
    rw [sortFin, Finset.mem_sort] at hmem
    exact hnotmem hmem
  · intro ix hall
    rw [hout]
    show (if addressed r.rank (ovOf r (mergedIS v ixs e m) e m) ix then
        bcastRead (gatherTensor v ixs e m)
          (ovApply (ovOf r (mergedIS v ixs e m) e m) ix)
      else r.data ix) =
      bcastRead (gatherTensor v ixs e m)
        (ovApply (ovOf r (mergedIS v ixs e m) e m) ix)
    rw [if_pos]
    rw [addressed, List.all_eq_true]
    intro i hi
    by_cases hex : ∃ p ∈ mergedIS v ixs e m,
        1 < r.shapeAt (lookupDim m p.1 - e) ∧
        ((i : ℤ) = -(lookupDim m p.1 - e) - 1)
    · obtain ⟨p, hp, hg, heq⟩ := hex
      obtain ⟨d, hlkp, hd0⟩ := hd0M p hp
      have hldp : lookupDim m p.1 = d := by rw [lookupDim, hlkp, Option.getD_some]
      have hioff : i = offOf d e := by
        rw [hldp] at heq
        rw [offOf]
        omega
      have hov : ovOf r (mergedIS v ixs e m) e m i = some (sortFin p.2) := by
        rw [ovOf]
        apply ovFold_mem r e m (mergedIS v ixs e m) _ i p.1 p.2
        · rwa [show (p.1, p.2) = p from rfl]
        · exact hg
        · exact heq
        · intro q hq hqne hand
          obtain ⟨hgq, haq⟩ := hand
          have : lookupDim m q.1 = lookupDim m p.1 := by omega
          exact hinjM p hp q hq (fun hc => hqne hc.symm) this.symm
        · exact hkeysM
      rw [hov]
      have hmem : ix (offOf d e) ∈ p.2 :=
        hall p hp d hlkp (by rwa [hldp] at hg)
      show (sortFin p.2).elem (ix i) = true
      rw [List.elem_iff, hioff, sortFin, Finset.mem_sort]
      exact hmem
    · push_neg at hex
      have hov : ovOf r (mergedIS v ixs e m) e m i = none := by
        rw [ovOf]
        exact ovFold_ne r e m (mergedIS v ixs e m) _ i hex
      rw [hov]

/-- C7 witness: scattering the scalar 42 into a length-3 accumulator at
index 1 of world `a` (merged index set = the requested one) writes position 1
and leaves positions 0 and 2 with their previous entries. -/
theorem scatter_supplied_result_frame_witness :
    ((∀ p ∈ mergedIS vScalar iA1 0 mab,
        ∃ d, mab.lookup p.1 = some d ∧ d < 0) ∧
      ((mergedIS vScalar iA1 0 mab).map Prod.fst).Nodup ∧
      (∀ p ∈ mergedIS vScalar iA1 0 mab, ∀ q ∈ mergedIS vScalar iA1 0 mab,
        p.1 ≠ q.1 → lookupDim mab p.1 ≠ lookupDim mab q.1)) ∧
    ((scatterTensor [⟨"a", -1, 3⟩] vScalar iA1 (some rFix) 0 mab).rank =
        rFix.rank ∧
      (scatterTensor [⟨"a", -1, 3⟩] vScalar iA1 (some rFix) 0 mab).size =
        rFix.size ∧
      (∀ ix : ℕ → ℕ,
        (∃ p ∈ mergedIS vScalar iA1 0 mab, ∃ d, mab.lookup p.1 = some d ∧
          1 < rFix.shapeAt (d - (0 : ℕ)) ∧ ix (offOf d 0) ∉ p.2) →
        (scatterTensor [⟨"a", -1, 3⟩] vScalar iA1 (some rFix) 0 mab).data ix =
          rFix.data ix) ∧
      (∀ ix : ℕ → ℕ,
        (∀ p ∈ mergedIS vScalar iA1 0 mab, ∀ d, mab.lookup p.1 = some d →
          1 < rFix.shapeAt (d - (0 : ℕ)) → ix (offOf d 0) ∈ p.2) →
        (scatterTensor [⟨"a", -1, 3⟩] vScalar iA1 (some rFix) 0 mab).data ix =
          bcastRead (gatherTensor vScalar iA1 0 mab)
            (ovApply (ovOf rFix (mergedIS vScalar iA1 0 mab) 0 mab) ix))) := by
  have hd0M : ∀ p ∈ mergedIS vScalar iA1 0 mab,
      ∃ d, mab.lookup p.1 = some d ∧ d < 0 := by
    rw [mergedIS_fixture]
    intro p hp
    rw [iA1, List.mem_singleton] at hp
    subst hp
    exact ⟨-1, rfl, by decide⟩
  have hkeysM : ((mergedIS vScalar iA1 0 mab).map Prod.fst).Nodup := by
    rw [mergedIS_fixture]
    decide
  have hinjM : ∀ p ∈ mergedIS vScalar iA1 0 mab,
      ∀ q ∈ mergedIS vScalar iA1 0 mab, p.1 ≠ q.1 →
      lookupDim mab p.1 ≠ lookupDim mab q.1 := by
    rw [mergedIS_fixture]
    decide
  exact ⟨⟨hd0M, hkeysM, hinjM⟩,
    scatter_supplied_result_frame [⟨"a", -1, 3⟩] vScalar iA1 rFix 0 mab
      hd0M hkeysM hinjM⟩

theorem bcastRev_replicate_one (xs : List ℕ) :
    ∀ k : ℕ, bcastRev xs (List.replicate k 1) =
      some (xs ++ List.replicate (k - xs.length) 1) := by
  induction xs with
  | nil =>
    intro k
    simp [bcastRev]
  | cons x xs ih =>
    intro k
    cases k with
    | zero => simp [bcastRev]
    | succ j =>
      rw [List.replicate_succ]
      show (do
        let z ← bdim x 1
        let zs ← bcastRev xs (List.replicate j 1)
        pure (z :: zs)) = _
      have hb : bdim x 1 = some x := by
        rw [bdim]
        by_cases hx : x = 1
        · subst hx
          simp
        · rw [if_neg hx, if_pos rfl]
      rw [hb, ih j]
      simp [List.length_cons]

theorem broadcastShapes_ones (s : List ℕ) (k : ℕ) :
    broadcastShapes s (List.replicate k 1) =
      some (List.replicate (k - s.length) 1 ++ s) := by
  rw [broadcastShapes, List.reverse_replicate, bcastRev_replicate_one s.reverse k]
  rw [Option.map_some']
  rw [List.reverse_append, List.reverse_replicate, List.reverse_reverse]
  rw [List.length_reverse]

theorem listSizeAt_replicate_append (n : ℕ) (s : List ℕ) (i : ℕ) :
    listSizeAt (List.replicate n 1 ++ s) i = listSizeAt s i := by
  rw [listSizeAt, listSizeAt]
  rw [List.length_append, List.length_replicate]
  by_cases h1 : i < s.length
  · rw [if_pos (by omega), if_pos h1]
    rw [List.getD_append_right _ _ _ _ (by rw [List.length_replicate]; omega)]
    rw [List.length_replicate]
    congr 1
    omega
  · by_cases h2 : i < n + s.length
    · rw [if_pos (by omega), if_neg h1]
      rw [List.getD_append _ _ _ _ (by rw [List.length_replicate]; omega)]
      rw [List.getD_eq_getElem?_getD]
      rw [List.getElem?_eq_getElem (by rw [List.length_replicate]; omega)]
      rw [List.getElem_replicate]
      rfl
    · rw [if_neg (by omega), if_neg h1]

theorem shapeList_getD_any (v : Tensor) (j : ℕ) (dflt : ℕ) (hj : j < v.rank) :
    v.shapeList.getD j dflt = v.size (v.rank - 1 - j) := by
  rw [Tensor.shapeList, List.getD_eq_getElem?_getD, List.getElem?_map,
    List.getElem?_range hj]
  rfl

theorem listSizeAt_shapeList (v : Tensor) (i : ℕ) :
    listSizeAt v.shapeList i = v.sizeAt i := by
  rw [listSizeAt, shapeList_length, Tensor.sizeAt]
  by_cases h : i < v.rank
  · rw [if_pos h, if_pos h, shapeList_getD_any v _ _ (by omega)]
    congr 1
    omega
  · rw [if_neg h, if_neg h]

theorem zerosOf_sizeAt (sh : List ℕ) (i : ℕ) :
    (zerosOf sh).sizeAt i = listSizeAt sh i := by
  rw [Tensor.sizeAt, listSizeAt]
  rfl

theorem listSizeAt_setI (sh : List ℕ) (dEff : ℤ) (n : ℕ) (i : ℕ)
    (hd : dEff < 0) (hin : (-dEff).toNat ≤ sh.length) :
    listSizeAt (setI sh dEff n) i =
      if i = (-dEff).toNat - 1 then n else listSizeAt sh i := by
  rw [setI, if_pos hd]
  rw [listSizeAt, listSizeAt, List.length_set]
  by_cases hi : i < sh.length
  · rw [if_pos hi, if_pos hi]
    rw [List.getD_eq_getElem?_getD, List.getD_eq_getElem?_getD, List.getElem?_set]
    by_cases he : i = (-dEff).toNat - 1
    · rw [if_pos he]
      rw [if_pos (by omega), if_pos (by omega)]
      rfl
    · rw [if_neg (show ¬(sh.length - (-dEff).toNat = sh.length - 1 - i) by omega),
        if_neg he]
  · rw [if_neg hi, if_neg hi, if_neg (by omega)]

theorem setI_length (sh : List ℕ) (dEff : ℤ) (n : ℕ) :
    (setI sh dEff n).length = sh.length := by
  rw [setI]
  by_cases h : dEff < 0
  · rw [if_pos h, List.length_set]
  · rw [if_neg h, List.length_set]



theorem rsFold_length (plates : List Plate) (e : ℕ) (m : NameToDim) :
    ∀ (ixs : IndexSet) (s0 : List ℕ),
      (ixs.foldl (rsStep plates e m) s0).length = s0.length := by
  intro ixs
  induction ixs with
  | nil => intro s0; rfl
  | cons p rest ih =>
    intro s0
    rw [List.foldl_cons, ih]
    rw [rsStep, setI_length]

theorem rsFold_ne (plates : List Plate) (e : ℕ) (m : NameToDim) :
    ∀ (ixs : IndexSet) (s0 : List ℕ) (i : ℕ),
      (∀ p ∈ ixs, lookupDim m p.1 < 0 ∧
        (((e : ℤ) - lookupDim m p.1).toNat ≤ s0.length) ∧
        i ≠ offOf (lookupDim m p.1) e) →
      listSizeAt (ixs.foldl (rsStep plates e m) s0) i = listSizeAt s0 i := by
  intro ixs
  induction ixs with
  | nil => intro s0 i h; rfl
  | cons p rest ih =>
    intro s0 i h
    obtain ⟨hd0, hlen, hne⟩ := h p (List.mem_cons_self p rest)
    rw [List.foldl_cons]
    have hstep : listSizeAt (rsStep plates e m s0 p) i = listSizeAt s0 i := by
      rw [rsStep]
      rw [listSizeAt_setI s0 _ _ i (by omega) (by omega)]
      rw [if_neg]
      intro hc
      apply hne
      rw [offOf]
      omega
    rw [ih (rsStep plates e m s0 p) i]
    · exact hstep
    · intro q hq
      obtain ⟨h1, h2, h3⟩ := h q (List.mem_cons_of_mem p hq)
      refine ⟨h1, ?_, h3⟩
      rw [rsStep, setI_length]
      exact h2

theorem rsFold_mem (plates : List Plate) (e : ℕ) (m : NameToDim) :
    ∀ (ixs : IndexSet) (s0 : List ℕ) (name : Name) (s : Finset ℕ),
      (name, s) ∈ ixs →
      lookupDim m name < 0 →
      (((e : ℤ) - lookupDim m name).toNat ≤ s0.length) →
      (∀ q ∈ ixs, q.1 ≠ name → lookupDim m q.1 ≠ lookupDim m name) →
      (∀ q ∈ ixs, lookupDim m q.1 < 0 ∧
        (((e : ℤ) - lookupDim m q.1).toNat ≤ s0.length)) →
      (ixs.map Prod.fst).Nodup →
      listSizeAt (ixs.foldl (rsStep plates e m) s0)
          (offOf (lookupDim m name) e) =
        plateSizeOf plates name := by
  intro ixs
  induction ixs with
  | nil => intro s0 name s hmem; simp at hmem
  | cons q rest ih =>
    intro s0 name s hmem hd0 hlen huniq hall hnd
    rw [List.map_cons, List.nodup_cons] at hnd
    rw [List.foldl_cons]
    by_cases hq : q.1 = name
    · have hrest : ∀ p ∈ rest, lookupDim m p.1 < 0 ∧
          (((e : ℤ) - lookupDim m p.1).toNat ≤ (rsStep plates e m s0 q).length) ∧
          offOf (lookupDim m name) e ≠ offOf (lookupDim m p.1) e := by
        intro p hp
        obtain ⟨h1, h2⟩ := hall p (List.mem_cons_of_mem q hp)
        refine ⟨h1, by rw [rsStep, setI_length]; exact h2, ?_⟩
        have hpne : p.1 ≠ name := by
          intro hc
          exact hnd.1 (hq ▸ hc ▸ List.mem_map_of_mem Prod.fst hp)
        have hdne : lookupDim m p.1 ≠ lookupDim m name :=
          huniq p (List.mem_cons_of_mem q hp) hpne
        intro hc
        apply hdne
        rw [offOf, offOf] at hc
        omega
      obtain ⟨hq0, hqlen⟩ := hall q (List.mem_cons_self q rest)
      rw [rsFold_ne plates e m rest _ _ hrest]
      rw [rsStep]
      rw [listSizeAt_setI s0 _ _ _ (by omega) (by omega)]
      rw [if_pos (by rw [hq, offOf]; omega), hq]
    · have hmem' : (name, s) ∈ rest := by
        rcases List.mem_cons.mp hmem with h | h
        · exact absurd (by rw [← h]) hq
        · exact h
      apply ih (rsStep plates e m s0 q) name s hmem' hd0
        (by rw [rsStep, setI_length]; exact hlen)
        (fun p hp => huniq p (List.mem_cons_of_mem q hp))
        (fun p hp => by
          obtain ⟨h1, h2⟩ := hall p (List.mem_cons_of_mem q hp)
          exact ⟨h1, by rw [rsStep, setI_length]; exact h2⟩)
        hnd.2



theorem init_le_foldl_max (l : List ℤ) : ∀ b : ℤ, b ≤ l.foldl max b := by
  induction l with
  | nil => intro b; exact le_refl b
  | cons y ys ih =>
    intro b
    rw [List.foldl_cons]
    exact le_trans (le_max_left b y) (ih (max b y))

theorem le_foldl_max (l : List ℤ) (x : ℤ) (hx : x ∈ l) :
    ∀ b : ℤ, x ≤ l.foldl max b := by
  induction l with
  | nil => simp at hx
  | cons y ys ih =>
    intro b
    rw [List.foldl_cons]
    rcases List.mem_cons.mp hx with h | h
    · subst h
      exact le_trans (le_max_right b x) (init_le_foldl_max ys (max b x))
    · exact ih h (max b y)

/-- C6: when `scatter` is called with `result=None`, the fresh accumulator is
zero-filled, its shape is the broadcast of the re-gathered value shape against
a minimal all-ones shape forcing every registered plate dimension to exist
(the rank is the max of the re-gathered value rank and the largest
`event_dim - dim` over registered plates, axes not named by the merged index
set keep the re-gathered value sizes), except that each named axis of the
merged index set has the total registered plate size; consequently in-range
positions whose index along a requested named axis is outside the requested
set hold 0 in the returned tensor.  The hypotheses are the registry and
dictionary invariants (merged names registered with negative pairwise-distinct
dimensions, duplicate-free keys, request sets non-empty and within plate
range) plus, for the zero-fill clause only, that the merge leaves each
requested name entry unchanged — the condition under which the indexed write
returns a tensor instead of raising a shape mismatch. -/
theorem scatter_fresh_result_spec (plates : List Plate) (v : Tensor)
    (ixs : IndexSet) (e : ℕ) (m : NameToDim)
    (hd0M : ∀ p ∈ mergedIS v ixs e m, ∃ d, m.lookup p.1 = some d ∧ d < 0)
    (hkeysM : ((mergedIS v ixs e m).map Prod.fst).Nodup)
    (hinjM : ∀ p ∈ mergedIS v ixs e m, ∀ q ∈ mergedIS v ixs e m, p.1 ≠ q.1 →
      lookupDim m p.1 ≠ lookupDim m q.1)
    (hregM : ∀ p ∈ mergedIS v ixs e m, ∃ pl, plateFind plates p.1 = some pl ∧
      pl.dim = lookupDim m p.1)
    (hne : ∀ p ∈ ixs, p.2 ≠ ∅)
    (hsub : ∀ p ∈ ixs, p.2 ⊆ Finset.range (plateSizeOf plates p.1))
    (hM : ∀ p ∈ ixs, getSet (mergedIS v ixs e m) p.1 = p.2) :
    (scatterTensor plates v ixs none e m).rank =
      max (gatherTensor v ixs e m).rank
        (((plates.map fun p => (e : ℤ) - p.dim).foldl max 0).toNat) ∧
    (∀ p ∈ mergedIS v ixs e m, ∀ d, m.lookup p.1 = some d →
      (scatterTensor plates v ixs none e m).sizeAt (offOf d e) =
        plateSizeOf plates p.1) ∧
    (∀ i, (∀ p ∈ mergedIS v ixs e m, ∀ d, m.lookup p.1 = some d →
        i ≠ offOf d e) →
      (scatterTensor plates v ixs none e m).sizeAt i =
        (gatherTensor v ixs e m).sizeAt i) ∧
    (∀ ix : ℕ → ℕ,
      (∀ i, ix i < (scatterTensor plates v ixs none e m).sizeAt i) →
      (∃ p ∈ ixs, ∃ d, m.lookup p.1 = some d ∧ ix (offOf d e) ∉ p.2) →
      (scatterTensor plates v ixs none e m).data ix = 0) := by
  have hd0 : ∀ p ∈ mergedIS v ixs e m, lookupDim m p.1 < 0 := by
    intro p hp
    obtain ⟨d, hd, hneg⟩ := hd0M p hp
    rw [lookupDim, hd, Option.getD_some]
    exact hneg
  set kI := (plates.map fun p => (e : ℤ) - p.dim).foldl max 0 with hkI
  set rs0 := (broadcastShapes (gatherTensor v ixs e m).shapeList
      (List.replicate kI.toNat 1)).getD [] with hrs0def
  have hrs0 : rs0 = List.replicate (kI.toNat - (gatherTensor v ixs e m).rank) 1
      ++ (gatherTensor v ixs e m).shapeList := by
    rw [hrs0def, broadcastShapes_ones, Option.getD_some, shapeList_length]
  have hlen0 : rs0.length = max (gatherTensor v ixs e m).rank kI.toNat := by
    rw [hrs0, List.length_append, List.length_replicate, shapeList_length]
    omega
  have hsz0 : ∀ i, listSizeAt rs0 i = (gatherTensor v ixs e m).sizeAt i := by
    intro i
    rw [hrs0, listSizeAt_replicate_append, listSizeAt_shapeList]
  have hKle : ∀ p ∈ mergedIS v ixs e m,
      ((e : ℤ) - lookupDim m p.1).toNat ≤ rs0.length := by
    intro p hp
    obtain ⟨pl, hfind, hdim⟩ := hregM p hp
    have hplmem : pl ∈ plates := List.mem_of_find?_eq_some hfind
    have hle : (e : ℤ) - pl.dim ≤ kI :=
      le_foldl_max _ _ (List.mem_map_of_mem _ hplmem) 0
    rw [hlen0]
    rw [hdim] at hle
    omega
  set rs := (mergedIS v ixs e m).foldl (rsStep plates e m) rs0 with hrsdef
  have hout : scatterTensor plates v ixs none e m =
      scatterWrite (zerosOf rs) (ovOf (zerosOf rs) (mergedIS v ixs e m) e m)
        (gatherTensor v ixs e m) := rfl
  have hrslen : rs.length = rs0.length :=
    rsFold_length plates e m (mergedIS v ixs e m) rs0
  have hsizeAt : ∀ i, (scatterTensor plates v ixs none e m).sizeAt i =
      listSizeAt rs i := by
    intro i
    rw [hout]
    show (zerosOf rs).sizeAt i = listSizeAt rs i
    exact zerosOf_sizeAt rs i
  have hnamed : ∀ p ∈ mergedIS v ixs e m, ∀ d, m.lookup p.1 = some d →
      (scatterTensor plates v ixs none e m).sizeAt (offOf d e) =
        plateSizeOf plates p.1 := by
    intro p hp d hd
    have hld : lookupDim m p.1 = d := by rw [lookupDim, hd, Option.getD_some]
    rw [hsizeAt, hrsdef, ← hld]
    apply rsFold_mem plates e m (mergedIS v ixs e m) rs0 p.1 p.2
      (by rwa [show (p.1, p.2) = p from rfl]) (hd0 p hp) (hKle p hp)
    · intro q hq hqne
      exact hinjM q hq p hp hqne
    · intro q hq
      exact ⟨hd0 q hq, hKle q hq⟩
    · exact hkeysM
  refine ⟨?_, hnamed, ?_, ?_⟩
  · rw [hout]
    show rs.length = max (gatherTensor v ixs e m).rank kI.toNat
    rw [hrslen, hlen0]
  · intro i hi
    rw [hsizeAt, hrsdef]
    rw [rsFold_ne plates e m (mergedIS v ixs e m) rs0 i]
    · exact hsz0 i
    · intro p hp
      obtain ⟨d, hd, hneg⟩ := hd0M p hp
      have hld : lookupDim m p.1 = d := by rw [lookupDim, hd, Option.getD_some]
      refine ⟨hd0 p hp, hKle p hp, ?_⟩
      rw [hld]
      exact hi p hp d hd
  · intro ix hbound hviol
    obtain ⟨p, hp, d, hd, hnotmem⟩ := hviol
    have hld : lookupDim m p.1 = d := by rw [lookupDim, hd, Option.getD_some]
    have hpM : (p.1, p.2) ∈ mergedIS v ixs e m := by
      have hg := hM p hp
      rw [getSet] at hg
      cases hlk : (mergedIS v ixs e m).lookup p.1 with
      | none =>
        rw [hlk, Option.getD_none] at hg
        exact absurd hg.symm (hne p hp)
      | some s =>
        rw [hlk, Option.getD_some] at hg
        exact hg ▸ mem_of_lookup hlk
    have hszn : (scatterTensor plates v ixs none e m).sizeAt (offOf d e) =
        plateSizeOf plates p.1 := hnamed (p.1, p.2) hpM d hd
    have hdneg : d < 0 := by rw [← hld]; exact hd0 (p.1, p.2) hpM
    by_cases hn : 1 < plateSizeOf plates p.1
    · have hov : ovOf (zerosOf rs) (mergedIS v ixs e m) e m (offOf d e) =
          some (sortFin p.2) := by
        rw [ovOf]
        apply ovFold_mem (zerosOf rs) e m (mergedIS v ixs e m) _
          (offOf d e) p.1 p.2
        · exact hpM
        · rw [hld, shapeAt_dim _ d e hdneg, zerosOf_sizeAt]
          rw [hsizeAt] at hszn
          rw [hszn]
          exact hn
        · rw [hld, offOf]
          omega
        · intro q hq hqne hand
          obtain ⟨hgq, haq⟩ := hand
          have : lookupDim m q.1 = d := by
            rw [offOf] at haq
            omega
          exact hinjM (p.1, p.2) hpM q hq (fun hc => hqne hc.symm)
            (by rw [hld, this])
        · exact hkeysM
      rw [hout]
      show (if addressed (zerosOf rs).rank
          (ovOf (zerosOf rs) (mergedIS v ixs e m) e m) ix then
          bcastRead (gatherTensor v ixs e m)
            (ovApply (ovOf (zerosOf rs) (mergedIS v ixs e m) e m) ix)
        else (zerosOf rs).data ix) = 0
      rw [if_neg]
      · rfl
      · intro haddr
        rw [addressed, List.all_eq_true] at haddr
        have hoff_lt : offOf d e < (zerosOf rs).rank := by
          by_contra hge
          push_neg at hge
          have h1 : (zerosOf rs).sizeAt (offOf d e) = 1 := sizeAt_of_rank_le hge
          rw [hsizeAt] at hszn
          rw [zerosOf_sizeAt] at h1
          omega
        have := haddr (offOf d e) (List.mem_range.mpr hoff_lt)
        rw [hov] at this
        have hmem : ix (offOf d e) ∈ sortFin p.2 := List.elem_iff.mp this
        rw [sortFin, Finset.mem_sort] at hmem
        exact hnotmem hmem
    · exfalso
      have hb := hbound (offOf d e)
      rw [hszn] at hb
      have hzero : ix (offOf d e) = 0 := by omega
      have h0mem : 0 ∈ p.2 := by
        obtain ⟨x, hx⟩ := Finset.nonempty_iff_ne_empty.mpr (hne p hp)
        have hxr := hsub p hp hx
        rw [Finset.mem_range] at hxr
        have : x = 0 := by omega
        rwa [this] at hx
      rw [hzero] at hnotmem
      exact hnotmem h0mem



/-- C6 witness: scattering the scalar 42 at index 1 of a registered plate of
size 3 allocates a zero accumulator of shape `(3,)` and leaves positions 0
and 2 at zero. -/
theorem scatter_fresh_result_spec_witness :
    ((∀ p ∈ mergedIS vScalar iA1 0 mab,
        ∃ d, mab.lookup p.1 = some d ∧ d < 0) ∧
      ((mergedIS vScalar iA1 0 mab).map Prod.fst).Nodup ∧
      (∀ p ∈ mergedIS vScalar iA1 0 mab, ∀ q ∈ mergedIS vScalar iA1 0 mab,
        p.1 ≠ q.1 → lookupDim mab p.1 ≠ lookupDim mab q.1) ∧
      (∀ p ∈ mergedIS vScalar iA1 0 mab,
        ∃ pl, plateFind [⟨"a", -1, 3⟩] p.1 = some pl ∧
          pl.dim = lookupDim mab p.1) ∧
      (∀ p ∈ iA1, p.2 ≠ ∅) ∧
      (∀ p ∈ iA1, p.2 ⊆ Finset.range (plateSizeOf [⟨"a", -1, 3⟩] p.1)) ∧
      (∀ p ∈ iA1, getSet (mergedIS vScalar iA1 0 mab) p.1 = p.2)) ∧
    ((scatterTensor [⟨"a", -1, 3⟩] vScalar iA1 none 0 mab).rank =
      max (gatherTensor vScalar iA1 0 mab).rank
        ((((([⟨"a", -1, 3⟩] : List Plate).map
          fun p => ((0 : ℕ) : ℤ) - p.dim).foldl max 0)).toNat) ∧
    (∀ p ∈ mergedIS vScalar iA1 0 mab, ∀ d, mab.lookup p.1 = some d →
      (scatterTensor [⟨"a", -1, 3⟩] vScalar iA1 none 0 mab).sizeAt (offOf d 0) =
        plateSizeOf [⟨"a", -1, 3⟩] p.1) ∧
    (∀ i, (∀ p ∈ mergedIS vScalar iA1 0 mab, ∀ d, mab.lookup p.1 = some d →
        i ≠ offOf d 0) →
      (scatterTensor [⟨"a", -1, 3⟩] vScalar iA1 none 0 mab).sizeAt i =
        (gatherTensor vScalar iA1 0 mab).sizeAt i) ∧
    (∀ ix : ℕ → ℕ,
      (∀ i, ix i < (scatterTensor [⟨"a", -1, 3⟩] vScalar iA1 none 0 mab).sizeAt i) →
      (∃ p ∈ iA1, ∃ d, mab.lookup p.1 = some d ∧ ix (offOf d 0) ∉ p.2) →
      (scatterTensor [⟨"a", -1, 3⟩] vScalar iA1 none 0 mab).data ix = 0)) := by
  have hd0M : ∀ p ∈ mergedIS vScalar iA1 0 mab,
      ∃ d, mab.lookup p.1 = some d ∧ d < 0 := by
    rw [mergedIS_fixture]
    intro p hp
    rw [iA1, List.mem_singleton] at hp
    subst hp
    exact ⟨-1, rfl, by decide⟩
  have hkeysM : ((mergedIS vScalar iA1 0 mab).map Prod.fst).Nodup := by
    rw [mergedIS_fixture]
    decide
  have hinjM : ∀ p ∈ mergedIS vScalar iA1 0 mab,
      ∀ q ∈ mergedIS vScalar iA1 0 mab, p.1 ≠ q.1 →
      lookupDim mab p.1 ≠ lookupDim mab q.1 := by
    rw [mergedIS_fixture]
    decide
  have hregM : ∀ p ∈ mergedIS vScalar iA1 0 mab,
      ∃ pl, plateFind [⟨"a", -1, 3⟩] p.1 = some pl ∧
        pl.dim = lookupDim mab p.1 := by
    rw [mergedIS_fixture]
    intro p hp
    rw [iA1, List.mem_singleton] at hp
    subst hp
    exact ⟨⟨"a", -1, 3⟩, rfl, rfl⟩
  have hMv : ∀ p ∈ iA1, getSet (mergedIS vScalar iA1 0 mab) p.1 = p.2 := by
    rw [mergedIS_fixture]
    decide
  exact ⟨⟨hd0M, hkeysM, hinjM, hregM, by decide, by decide, hMv⟩,
    scatter_fresh_result_spec [⟨"a", -1, 3⟩] vScalar iA1 0 mab
      hd0M hkeysM hinjM hregM (by decide) (by decide) hMv⟩

theorem getD_range (n i : ℕ) (h : i < n) : (List.range n).getD i 0 = i := by
  rw [List.getD_eq_getElem?_getD, List.getElem?_range h]
  rfl

theorem indexOf_map_succ : ∀ (l : List ℕ) (j : ℕ),
    (l.map Nat.succ).indexOf (j + 1) = l.indexOf j := by
  intro l
  induction l with
  | nil => intro j; rfl
  | cons a l ih =>
    intro j
    rw [List.map_cons, List.indexOf_cons, List.indexOf_cons]
    have hbeq : ((Nat.succ a == j + 1) : Bool) = (a == j) := by
      cases h : (a == j) with
      | true =>
        have := beq_iff_eq.mp h
        subst this
        simp
      | false =>
        have hne : a ≠ j := by
          intro hc
          rw [hc] at h
          simp at h
        apply beq_eq_false_iff_ne.mpr
        omega
    rw [hbeq]
    cases h : (a == j) with
    | false => simp only [cond_false, ih j]
    | true => rfl

theorem indexOf_range : ∀ (n i : ℕ), i < n → (List.range n).indexOf i = i := by
  intro n
  induction n with
  | zero => intro i h; omega
  | succ n ih =>
    intro i h
    rw [List.range_succ_eq_map, List.indexOf_cons]
    cases i with
    | zero => rfl
    | succ j =>
      rw [show ((0 == j + 1) : Bool) = false from rfl]
      simp only [cond_false]
      rw [indexOf_map_succ, ih j (by omega)]

theorem elem_range (n i : ℕ) : (List.range n).elem i = true ↔ i < n := by
  rw [List.elem_iff, List.mem_range]

theorem addressed_single (rk A n : ℕ) (hA : A < rk) (ix : ℕ → ℕ) :
    addressed rk (fun a => if a = A then some (List.range n) else none) ix =
      (List.range n).elem (ix A) := by
  cases hel : (List.range n).elem (ix A) with
  | false =>
    rw [addressed, List.all_eq_false]
    refine ⟨A, List.mem_range.mpr hA, ?_⟩
    simp only [if_pos rfl]
    simp at hel ⊢
    omega
  | true =>
    rw [addressed, List.all_eq_true]
    intro i hi
    by_cases hiA : i = A
    · subst hiA
      simpa using hel
    · simp [hiA]

theorem ovApply_single (A n : ℕ) (ix : ℕ → ℕ) :
    ovApply (fun a => if a = A then some (List.range n) else none) ix =
      fun i => if i = A then (List.range n).indexOf (ix i) else ix i := by
  funext i
  rw [ovApply]
  by_cases hiA : i = A
  · simp [hiA]
  · simp [hiA]



theorem index_select_eq (t : Tensor) (d : ℤ) (e : ℕ) (l : List ℕ) (hd : d < 0) :
    t.index_select (d - e) l = ⟨t.rank,
      fun i => if i = offOf d e then l.length else t.size i,
      fun ix => t.data fun i =>
        if i = offOf d e then l.getD (ix (offOf d e)) 0 else ix i⟩ := by
  rw [Tensor.index_select]
  have h : (if (d - (e : ℤ)) < 0 then (-(d - (e : ℤ))).toNat - 1
      else t.rank - 1 - (d - (e : ℤ)).toNat) = offOf d e := by
    rw [if_pos (by omega), offOf]
    omega
  rw [h]

theorem lookup_single (name : Name) (d : ℤ) :
    List.lookup name [(name, d)] = some d := by
  rw [List.lookup_cons]
  simp

theorem lookupDim_single (name : Name) (d : ℤ) :
    lookupDim [(name, d)] name = d := by
  rw [lookupDim, lookup_single, Option.getD_some]

theorem gather_single_select (v : Tensor) (name : Name) (d : ℤ) (e n : ℕ)
    (hd : d < 0) (hrank : (e : ℤ) - d ≤ v.rank)
    (hne1 : v.shapeAt (d - e) ≠ 1) :
    gatherTensor v [(name, Finset.range n)] e [(name, d)] =
      v.index_select (d - e) (List.range n) := by
  simp only [gatherTensor, lookupDim, lookup_single, Option.getD_some]
  show gatherTensor (if (v.rank : ℤ) < -(d - (e : ℤ)) ∨ v.shapeAt (d - (e : ℤ)) = 1
      then v else v.index_select (d - (e : ℤ)) (sortFin (Finset.range n)))
    [] e [(name, d)] = v.index_select (d - (e : ℤ)) (List.range n)
  rw [if_neg (by
    rintro (h | h)
    · omega
    · exact hne1 h)]
  rw [show sortFin (Finset.range n) = List.range n from Finset.sort_range n]
  rfl

theorem gather_single_skip (v : Tensor) (name : Name) (d : ℤ) (e n : ℕ)
    (hskip : (v.rank : ℤ) < -(d - e) ∨ v.shapeAt (d - e) = 1) :
    gatherTensor v [(name, Finset.range n)] e [(name, d)] = v := by
  apply gather_skip_all
  intro p hp
  rw [List.mem_singleton] at hp
  subst hp
  exact ⟨d, lookup_single name d, hskip⟩

theorem ovOf_single_gt (R : Tensor) (name : Name) (d : ℤ) (e n : ℕ)
    (hd : d < 0) (hgt : 1 < R.sizeAt (offOf d e)) :
    ovOf R [(name, Finset.range n)] e [(name, d)] =
      fun a => if a = offOf d e then some (List.range n) else none := by
  funext a
  rw [ovOf, List.foldl_cons, List.foldl_nil, ovStep]
  simp only [lookupDim_single]
  rw [if_pos (by rw [shapeAt_dim R d e hd]; exact hgt)]
  rw [show sortFin (Finset.range n) = List.range n from Finset.sort_range n]
  by_cases haA : a = offOf d e
  · rw [if_pos haA, if_pos]
    subst haA
    rw [offOf]
    omega
  · rw [if_neg haA, if_neg]
    intro hc
    apply haA
    rw [offOf]
    omega

theorem ovOf_single_le (R : Tensor) (name : Name) (d : ℤ) (e n : ℕ)
    (hd : d < 0) (hle : R.sizeAt (offOf d e) ≤ 1) :
    ovOf R [(name, Finset.range n)] e [(name, d)] = fun _ => none := by
  funext a
  rw [ovOf, List.foldl_cons, List.foldl_nil, ovStep]
  simp only [lookupDim_single]
  rw [if_neg (by rw [shapeAt_dim R d e hd]; omega)]

theorem merged_select (v1 : Tensor) (name : Name) (d : ℤ) (e n : ℕ)
    (hd : d < 0) (hax : (-d).toNat ≤ v1.rank - e)
    (hsz : v1.sizeAt (offOf d e) = n) (hn : 2 ≤ n) :
    unionIS [(name, Finset.range n)]
        (indicesOfShape v1.shapeList e [(name, d)]) =
      [(name, Finset.range n)] := by
  have hio : indicesOfShape v1.shapeList e [(name, d)] =
      [(name, Finset.range n)] := by
    rw [show indicesOfShape v1.shapeList e [(name, d)] =
        (if -d ≤ ((v1.shapeList.take (v1.shapeList.length - e)).length : ℤ) ∧
            1 < shapeGetI (v1.shapeList.take (v1.shapeList.length - e)) d then
          [(name, Finset.range
            (shapeGetI (v1.shapeList.take (v1.shapeList.length - e)) d))]
        else []) from by
      rw [indicesOfShape]
      rw [List.filterMap_cons, List.filterMap_nil]
      by_cases hc : -d ≤ ((v1.shapeList.take (v1.shapeList.length - e)).length : ℤ) ∧
          1 < shapeGetI (v1.shapeList.take (v1.shapeList.length - e)) d
      · rw [if_pos hc]
        simp only
        rw [if_pos hc]
      · rw [if_neg hc]
        simp only
        rw [if_neg hc]]
    rw [shapeGetI_trim v1 e d hd hax, hsz]
    rw [if_pos ⟨by rw [List.length_take, shapeList_length]; omega, by omega⟩]
  rw [hio, unionIS]
  have hner : Finset.range n ≠ ∅ := by
    rw [← Finset.nonempty_iff_ne_empty, Finset.nonempty_range_iff]
    omega
  simp [getSet, hner]



theorem plateSizeOf_single (name : Name) (d : ℤ) (n : ℕ) :
    plateSizeOf [⟨name, d, n⟩] name = n := by
  simp [plateSizeOf, plateFind]

theorem addressed_none (rk : ℕ) (ix : ℕ → ℕ) :
    addressed rk (fun _ => none) ix = true := by
  rw [addressed, List.all_eq_true]
  intro i hi
  rfl

theorem ovApply_none (ix : ℕ → ℕ) : ovApply (fun _ => none) ix = ix := by
  funext i
  rfl

theorem scatter_single_facts (name : Name) (d : ℤ) (e n : ℕ) (v G1 : Tensor)
    (hd : d < 0) (hn : 1 ≤ n)
    (hG1eq : gatherTensor v [(name, Finset.range n)] e [(name, d)] = G1)
    (hmerged : unionIS [(name, Finset.range n)]
        (indicesOfShape G1.shapeList e [(name, d)]) = [(name, Finset.range n)])
    :
    (∀ i, (scatterTensor [⟨name, d, n⟩] v [(name, Finset.range n)] none e
        [(name, d)]).sizeAt i = if i = offOf d e then n else G1.sizeAt i) ∧
    (2 ≤ n → ∀ ix : ℕ → ℕ, ix (offOf d e) < n →
      (scatterTensor [⟨name, d, n⟩] v [(name, Finset.range n)] none e
        [(name, d)]).data ix =
        bcastRead G1 (fun i => if i = offOf d e then ix (offOf d e) else ix i)) ∧
    (n = 1 → ∀ ix : ℕ → ℕ,
      (scatterTensor [⟨name, d, n⟩] v [(name, Finset.range n)] none e
        [(name, d)]).data ix = bcastRead G1 ix) := by
  have hA : offOf d e = ((e : ℤ) - d).toNat - 1 := by rw [offOf]; omega
  have hkfold : ((([⟨name, d, n⟩] : List Plate).map
      fun p => (e : ℤ) - p.dim).foldl max 0) = (e : ℤ) - d := by
    rw [List.map_cons, List.map_nil, List.foldl_cons, List.foldl_nil]
    show max 0 ((e : ℤ) - Plate.dim ⟨name, d, n⟩) = (e : ℤ) - d
    rw [show Plate.dim ⟨name, d, n⟩ = d from rfl]
    omega
  set K : ℕ := ((e : ℤ) - d).toNat with hKdef
  set rs0 : List ℕ :=
    List.replicate (K - G1.shapeList.length) 1 ++ G1.shapeList with hrs0
  have hrs0len : rs0.length = max G1.rank K := by
    rw [hrs0, List.length_append, List.length_replicate, shapeList_length]
    omega
  have hrs0sz : ∀ i, listSizeAt rs0 i = G1.sizeAt i := by
    intro i
    rw [hrs0, listSizeAt_replicate_append, listSizeAt_shapeList]
  set rs : List ℕ := setI rs0 (d - e) n with hrsdef
  have hKle : K ≤ rs0.length := by
    rw [hrs0len]
    omega
  have hrssz : ∀ i, listSizeAt rs i = if i = offOf d e then n else G1.sizeAt i := by
    intro i
    rw [hrsdef, listSizeAt_setI rs0 (d - e) n i (by omega)
      (by rw [show (-(d - (e : ℤ))).toNat = K from by omega]; exact hKle)]
    rw [show (-(d - (e : ℤ))).toNat - 1 = offOf d e from by rw [hA]; omega]
    by_cases hiA : i = offOf d e
    · rw [if_pos hiA, if_pos hiA]
    · rw [if_neg hiA, if_neg hiA, hrs0sz]
  have hout : scatterTensor [⟨name, d, n⟩] v [(name, Finset.range n)] none e
      [(name, d)] = scatterWrite (zerosOf rs)
        (ovOf (zerosOf rs) [(name, Finset.range n)] e [(name, d)]) G1 := by
    simp only [scatterTensor]
    rw [hG1eq, hmerged]
    rw [hkfold]
    rw [broadcastShapes_ones G1.shapeList K, Option.getD_some]
    rw [List.foldl_cons, List.foldl_nil]
    rw [rsStep, lookupDim_single, plateSizeOf_single]
  have hRsz : ∀ i, (zerosOf rs).sizeAt i =
      if i = offOf d e then n else G1.sizeAt i := by
    intro i
    rw [zerosOf_sizeAt]
    exact hrssz i
  refine ⟨?_, ?_, ?_⟩
  · intro i
    rw [hout]
    show (zerosOf rs).sizeAt i = _
    exact hRsz i
  · intro hn2 ix hix
    have hRA : (zerosOf rs).sizeAt (offOf d e) = n := by
      rw [hRsz, if_pos rfl]
    have hAlt : offOf d e < (zerosOf rs).rank := by
      by_contra hge
      push_neg at hge
      rw [sizeAt_of_rank_le hge] at hRA
      omega
    have hov := ovOf_single_gt (zerosOf rs) name d e n hd (by omega)
    rw [hout]
    show (if addressed (zerosOf rs).rank
        (ovOf (zerosOf rs) [(name, Finset.range n)] e [(name, d)]) ix then
      bcastRead G1 (ovApply
        (ovOf (zerosOf rs) [(name, Finset.range n)] e [(name, d)]) ix)
      else (zerosOf rs).data ix) = _
    rw [hov, addressed_single _ _ _ hAlt, ovApply_single]
    rw [if_pos ((elem_range n _).mpr hix)]
    congr 1
    funext i
    by_cases hiA : i = offOf d e
    · subst hiA
      rw [if_pos rfl, if_pos rfl, indexOf_range n _ hix]
    · rw [if_neg hiA, if_neg hiA]
  · intro hn1 ix
    have hle : (zerosOf rs).sizeAt (offOf d e) ≤ 1 := by
      rw [hRsz, if_pos rfl]
      omega
    have hov := ovOf_single_le (zerosOf rs) name d e n hd hle
    rw [hout]
    show (if addressed (zerosOf rs).rank
        (ovOf (zerosOf rs) [(name, Finset.range n)] e [(name, d)]) ix then
      bcastRead G1 (ovApply
        (ovOf (zerosOf rs) [(name, Finset.range n)] e [(name, d)]) ix)
      else (zerosOf rs).data ix) = _
    rw [hov, addressed_none, ovApply_none, if_pos rfl]



theorem sizeAt_mk (rk : ℕ) (sz : ℕ → ℕ) (df : (ℕ → ℕ) → ℤ) (i : ℕ) :
    Tensor.sizeAt ⟨rk, sz, df⟩ i = if i < rk then sz i else 1 := rfl

theorem gather_scatter_inverse_skip (name : Name) (d : ℤ) (e n : ℕ)
    (v : Tensor) (hd : d < 0) (hn : 1 ≤ n) (hA1 : v.sizeAt (offOf d e) = 1) :
    elemEqBC
      (gatherTensor
        (scatterTensor [⟨name, d, n⟩] v [(name, Finset.range n)] none e
          [(name, d)])
        [(name, Finset.range n)] e [(name, d)]) v := by
  have hsh : v.shapeAt (d - e) = 1 := by
    rw [shapeAt_dim v d e hd]
    exact hA1
  have hG1eq : gatherTensor v [(name, Finset.range n)] e [(name, d)] = v :=
    gather_single_skip v name d e n (Or.inr hsh)
  have hmerged : unionIS [(name, Finset.range n)]
      (indicesOfShape v.shapeList e [(name, d)]) =
      [(name, Finset.range n)] := by
    rw [indicesOfShape_tensor_nil v e [(name, d)] (by
      intro p hp
      rw [List.mem_singleton] at hp
      subst hp
      exact ⟨hd, Or.inr hA1⟩)]
    apply unionIS_nil_right
    intro p hp
    rw [List.mem_singleton] at hp
    subst hp
    show Finset.range n ≠ ∅
    rw [← Finset.nonempty_iff_ne_empty, Finset.nonempty_range_iff]
    omega
  obtain ⟨hSsz, hSdata2, hSdata1⟩ :=
    scatter_single_facts name d e n v v hd hn hG1eq hmerged
  set S := scatterTensor [⟨name, d, n⟩] v [(name, Finset.range n)] none e
    [(name, d)] with hSdef
  have hSA : S.sizeAt (offOf d e) = n := by rw [hSsz, if_pos rfl]
  by_cases hn1 : n = 1
  · have hG2 : gatherTensor S [(name, Finset.range n)] e [(name, d)] = S := by
      apply gather_single_skip
      right
      rw [shapeAt_dim S d e hd, hSA, hn1]
    rw [hG2]
    constructor
    · intro i
      by_cases hiA : i = offOf d e
      · subst hiA
        exact Or.inl (by rw [hSA, hn1])
      · exact Or.inr (Or.inr (by rw [hSsz, if_neg hiA]))
    · intro ix hbound
      rw [hSdata1 hn1, bcastRead]
      congr 1
      funext i
      by_cases h1 : v.sizeAt i = 1
      · rw [if_pos h1, if_pos h1]
      · rw [if_neg h1, if_neg h1]
        have hiA : i ≠ offOf d e := fun hc => h1 (hc ▸ hA1)
        rw [hSsz i, if_neg hiA, if_neg h1]
  · have hn2 : 2 ≤ n := by omega
    have hAltS : offOf d e < S.rank := by
      by_contra hge
      push_neg at hge
      rw [sizeAt_of_rank_le hge] at hSA
      omega
    have hG2 : gatherTensor S [(name, Finset.range n)] e [(name, d)] =
        S.index_select (d - e) (List.range n) := by
      apply gather_single_select S name d e n hd
      · have := hAltS
        rw [offOf] at this
        omega
      · rw [shapeAt_dim S d e hd, hSA]
        omega
    rw [hG2, index_select_eq S d e (List.range n) hd]
    set TS : Tensor := ⟨S.rank,
      fun i => if i = offOf d e then (List.range n).length else S.size i,
      fun ixf => S.data fun i =>
        if i = offOf d e then (List.range n).getD (ixf (offOf d e)) 0
        else ixf i⟩ with hTS
    have hTSsz : ∀ i, TS.sizeAt i = if i = offOf d e then n else v.sizeAt i := by
      intro i
      rw [hTS, sizeAt_mk]
      by_cases hiA : i = offOf d e
      · subst hiA
        rw [if_pos hAltS, if_pos rfl, if_pos rfl, List.length_range]
      · rw [if_neg hiA, if_neg hiA]
        have hvS : S.sizeAt i = v.sizeAt i := by rw [hSsz, if_neg hiA]
        rw [← hvS, Tensor.sizeAt]
    constructor
    · intro i
      rw [hTSsz]
      by_cases hiA : i = offOf d e
      · subst hiA
        rw [if_pos rfl]
        exact Or.inr (Or.inl hA1)
      · rw [if_neg hiA]
        exact Or.inr (Or.inr rfl)
    · intro ix hbound
      have hixA : ix (offOf d e) < n := by
        have hb := hbound (offOf d e)
        rw [hTSsz, if_pos rfl, hA1] at hb
        omega
      show S.data (fun i =>
        if i = offOf d e then
          (List.range n).getD
            (if TS.sizeAt (offOf d e) = 1 then 0 else ix (offOf d e)) 0
        else if TS.sizeAt i = 1 then 0 else ix i) = _
      have hclean : (fun i =>
          if i = offOf d e then
            (List.range n).getD
              (if TS.sizeAt (offOf d e) = 1 then 0 else ix (offOf d e)) 0
          else if TS.sizeAt i = 1 then 0 else ix i) =
          fun i => if i = offOf d e then ix (offOf d e)
            else if TS.sizeAt i = 1 then 0 else ix i := by
        funext i
        by_cases hiA : i = offOf d e
        · rw [if_pos hiA, if_pos hiA]
          rw [hTSsz, if_pos rfl, if_neg (by omega), getD_range n _ hixA]
        · rw [if_neg hiA, if_neg hiA]
      rw [hclean]
      rw [hSdata2 hn2 _ (by rw [if_pos rfl]; exact hixA)]
      rw [bcastRead]
      congr 1
      funext i
      by_cases h1 : v.sizeAt i = 1
      · rw [if_pos h1, if_pos h1]
      · rw [if_neg h1, if_neg h1]
        have hiA : i ≠ offOf d e := fun hc => h1 (hc ▸ hA1)
        show (if i = offOf d e then
            if offOf d e = offOf d e then ix (offOf d e)
            else if TS.sizeAt (offOf d e) = 1 then 0 else ix (offOf d e)
          else if i = offOf d e then ix (offOf d e)
            else if TS.sizeAt i = 1 then 0 else ix i) = ix i
        rw [if_neg hiA, if_neg hiA, hTSsz i, if_neg hiA, if_neg h1]



theorem gather_scatter_inverse_select (name : Name) (d : ℤ) (e n : ℕ)
    (v : Tensor) (hd : d < 0) (hn2 : 2 ≤ n)
    (hAn : v.sizeAt (offOf d e) = n) (hrank : (e : ℤ) - d ≤ v.rank) :
    elemEqBC
      (gatherTensor
        (scatterTensor [⟨name, d, n⟩] v [(name, Finset.range n)] none e
          [(name, d)])
        [(name, Finset.range n)] e [(name, d)]) v := by
  have hAlt : offOf d e < v.rank := by
    by_contra hge
    push_neg at hge
    rw [sizeAt_of_rank_le hge] at hAn
    omega
  have hG1eq : gatherTensor v [(name, Finset.range n)] e [(name, d)] =
      v.index_select (d - e) (List.range n) :=
    gather_single_select v name d e n hd hrank
      (by rw [shapeAt_dim v d e hd, hAn]; omega)
  rw [index_select_eq v d e (List.range n) hd] at hG1eq
  set G1L : Tensor := ⟨v.rank,
    fun i => if i = offOf d e then (List.range n).length else v.size i,
    fun ixf => v.data fun i =>
      if i = offOf d e then (List.range n).getD (ixf (offOf d e)) 0
      else ixf i⟩ with hG1L
  have hG1sz : ∀ i, G1L.sizeAt i = v.sizeAt i := by
    intro i
    rw [hG1L, sizeAt_mk]
    by_cases hiA : i = offOf d e
    · subst hiA
      rw [if_pos hAlt, if_pos rfl, List.length_range, ← hAn, Tensor.sizeAt,
        if_pos hAlt]
    · rw [if_neg hiA, Tensor.sizeAt]
  have hG1data : ∀ ixf : ℕ → ℕ, ixf (offOf d e) < n →
      G1L.data ixf = v.data ixf := by
    intro ixf hixf
    show v.data (fun i => if i = offOf d e then
        (List.range n).getD (ixf (offOf d e)) 0 else ixf i) = v.data ixf
    congr 1
    funext i
    by_cases hiA : i = offOf d e
    · subst hiA
      rw [if_pos rfl, getD_range n _ hixf]
    · rw [if_neg hiA]
  have hmerged : unionIS [(name, Finset.range n)]
      (indicesOfShape G1L.shapeList e [(name, d)]) =
      [(name, Finset.range n)] := by
    apply merged_select G1L name d e n hd
    · show (-d).toNat ≤ v.rank - e
      omega
    · rw [hG1sz]
      exact hAn
    · exact hn2
  obtain ⟨hSsz', hSdata2, -⟩ :=
    scatter_single_facts name d e n v G1L hd (by omega) hG1eq hmerged
  set S := scatterTensor [⟨name, d, n⟩] v [(name, Finset.range n)] none e
    [(name, d)] with hSdef
  have hSsz : ∀ i, S.sizeAt i = v.sizeAt i := by
    intro i
    rw [hSsz']
    by_cases hiA : i = offOf d e
    · subst hiA
      rw [if_pos rfl, hAn]
    · rw [if_neg hiA, hG1sz]
  have hSA : S.sizeAt (offOf d e) = n := by rw [hSsz, hAn]
  have hAltS : offOf d e < S.rank := by
    by_contra hge
    push_neg at hge
    rw [sizeAt_of_rank_le hge] at hSA
    omega
  have hG2 : gatherTensor S [(name, Finset.range n)] e [(name, d)] =
      S.index_select (d - e) (List.range n) := by
    apply gather_single_select S name d e n hd
    · have := hAltS
      rw [offOf] at this
      omega
    · rw [shapeAt_dim S d e hd, hSA]
      omega
  rw [hG2, index_select_eq S d e (List.range n) hd]
  set TS : Tensor := ⟨S.rank,
    fun i => if i = offOf d e then (List.range n).length else S.size i,
    fun ixf => S.data fun i =>
      if i = offOf d e then (List.range n).getD (ixf (offOf d e)) 0
      else ixf i⟩ with hTS
  have hTSsz : ∀ i, TS.sizeAt i = v.sizeAt i := by
    intro i
    rw [hTS, sizeAt_mk]
    by_cases hiA : i = offOf d e
    · subst hiA
      rw [if_pos hAltS, if_pos rfl, List.length_range, hAn]
    · rw [if_neg hiA]
      have hvS : S.sizeAt i = v.sizeAt i := hSsz i
      rw [← hvS, Tensor.sizeAt]
  constructor
  · intro i
    exact Or.inr (Or.inr (hTSsz i))
  · intro ix hbound
    have hixA : ix (offOf d e) < n := by
      have hb := hbound (offOf d e)
      rw [hTSsz, hAn] at hb
      omega
    show S.data (fun i =>
      if i = offOf d e then
        (List.range n).getD
          (if TS.sizeAt (offOf d e) = 1 then 0 else ix (offOf d e)) 0
      else if TS.sizeAt i = 1 then 0 else ix i) = _
    have hclean : (fun i =>
        if i = offOf d e then
          (List.range n).getD
            (if TS.sizeAt (offOf d e) = 1 then 0 else ix (offOf d e)) 0
        else if TS.sizeAt i = 1 then 0 else ix i) =
        fun i => if i = offOf d e then ix (offOf d e)
          else if TS.sizeAt i = 1 then 0 else ix i := by
      funext i
      by_cases hiA : i = offOf d e
      · rw [if_pos hiA, if_pos hiA]
        rw [hTSsz, hAn, if_neg (by omega), getD_range n _ hixA]
      · rw [if_neg hiA, if_neg hiA]
    rw [hclean]
    rw [hSdata2 hn2 _ (by rw [if_pos rfl]; exact hixA)]
    rw [bcastRead]
    have hne1 : ¬ (n = 1) := by omega
    rw [hG1data _ (by
      show (if G1L.sizeAt (offOf d e) = 1 then 0
        else if offOf d e = offOf d e then
          if offOf d e = offOf d e then ix (offOf d e)
          else if TS.sizeAt (offOf d e) = 1 then 0 else ix (offOf d e)
        else if offOf d e = offOf d e then ix (offOf d e)
          else if TS.sizeAt (offOf d e) = 1 then 0 else ix (offOf d e)) < n
      rw [hG1sz, hAn, if_neg hne1,
        if_pos (rfl : offOf d e = offOf d e),
        if_pos (rfl : offOf d e = offOf d e)]
      exact hixA)]
    congr 1
    funext i
    by_cases hiA : i = offOf d e
    · subst hiA
      show (if G1L.sizeAt (offOf d e) = 1 then 0
        else if offOf d e = offOf d e then
          if offOf d e = offOf d e then ix (offOf d e)
          else if TS.sizeAt (offOf d e) = 1 then 0 else ix (offOf d e)
        else if offOf d e = offOf d e then ix (offOf d e)
          else if TS.sizeAt (offOf d e) = 1 then 0 else ix (offOf d e)) =
        if v.sizeAt (offOf d e) = 1 then 0 else ix (offOf d e)
      rw [hG1sz, hAn, if_neg hne1, if_neg hne1,
        if_pos (rfl : offOf d e = offOf d e),
        if_pos (rfl : offOf d e = offOf d e)]
    · show (if G1L.sizeAt i = 1 then 0
        else if i = offOf d e then
          if offOf d e = offOf d e then ix (offOf d e)
          else if TS.sizeAt (offOf d e) = 1 then 0 else ix (offOf d e)
        else if i = offOf d e then ix (offOf d e)
          else if TS.sizeAt i = 1 then 0 else ix i) =
        if v.sizeAt i = 1 then 0 else ix i
      rw [hG1sz]
      by_cases h1 : v.sizeAt i = 1
      · rw [if_pos h1, if_pos h1]
      · rw [if_neg h1, if_neg h1, if_neg hiA, if_neg hiA, hTSsz, if_neg h1]



/-- C1 (amended): for a tensor `v` and an IndexSet fully covering one named
world axis (requested indices = the whole range of the registered plate
size), `gather(scatter(v, I), I)` is element-wise equal (under torch
broadcasting) to `v`, with the same `event_dim` and `name_to_dim` in both
calls — provided the extent of `v` along the covered axis is 1, the plate
size, or absent (fewer axes than the target).  Without that proviso the law
fails; see the counterexample. -/
theorem gather_scatter_inverse (name : Name) (d : ℤ) (n : ℕ) (v : Tensor)
    (e : ℕ) (hd : d < 0) (hn : 1 ≤ n)
    (hext : ((v.rank : ℤ) < (e : ℤ) - d) ∨ v.shapeAt (d - e) = 1 ∨
      v.shapeAt (d - e) = n) :
    elemEqBC
      (gatherTensor
        (scatterTensor [⟨name, d, n⟩] v [(name, Finset.range n)] none e
          [(name, d)])
        [(name, Finset.range n)] e [(name, d)]) v := by
  rw [shapeAt_dim v d e hd] at hext
  by_cases hA1 : v.sizeAt (offOf d e) = 1
  · exact gather_scatter_inverse_skip name d e n v hd hn hA1
  · have hAn : v.sizeAt (offOf d e) = n := by
      rcases hext with h | h | h
      · exact absurd (sizeAt_of_rank_le (by rw [offOf]; omega)) hA1
      · exact absurd h hA1
      · exact h
    have hn2 : 2 ≤ n := by
      have : n ≠ 1 := fun hc => hA1 (by rw [hAn, hc])
      omega
    have hrank : (e : ℤ) - d ≤ v.rank := by
      by_contra hc
      push_neg at hc
      exact hA1 (sizeAt_of_rank_le (by rw [offOf]; omega))
    exact gather_scatter_inverse_select name d e n v hd hn2 hAn hrank

/-- C1 counterexample: a rank-1 tensor of length 3 under a registered plate
of size 2, with the fully covering IndexSet `a -> {0, 1}`: the round trip
produces a length-2 tensor, which is not broadcast-comparable (let alone
element-wise equal) to the length-3 input, so the claim as stated is false.
(In torch the final comparison raises a shape mismatch.) -/
theorem gather_scatter_inverse_counterexample :
    ¬ elemEqBC
      (gatherTensor
        (scatterTensor [⟨"a", -1, 2⟩] ⟨1, fun _ => 3, fun ix => (ix 0 : ℤ)⟩
          [("a", Finset.range 2)] none 0 [("a", -1)])
        [("a", Finset.range 2)] 0 [("a", -1)])
      ⟨1, fun _ => 3, fun ix => (ix 0 : ℤ)⟩ := by
  intro h
  have hG1eq : gatherTensor (⟨1, fun _ => 3, fun ix => (ix 0 : ℤ)⟩ : Tensor)
      [("a", Finset.range 2)] 0 [("a", -1)] =
      (⟨1, fun _ => 3, fun ix => (ix 0 : ℤ)⟩ : Tensor).index_select
        ((-1 : ℤ) - (0 : ℕ)) (List.range 2) :=
    gather_single_select _ "a" (-1) 0 2 (by decide) (by decide) (by decide)
  rw [index_select_eq _ (-1) 0 (List.range 2) (by decide)] at hG1eq
  have hmerged : unionIS [("a", Finset.range 2)]
      (indicesOfShape (⟨1,
        fun i => if i = offOf (-1) 0 then (List.range 2).length else 3,
        fun ixf => (⟨1, fun _ => 3, fun ix => (ix 0 : ℤ)⟩ : Tensor).data fun i =>
          if i = offOf (-1) 0 then (List.range 2).getD (ixf (offOf (-1) 0)) 0
          else ixf i⟩ : Tensor).shapeList 0 [("a", -1)]) =
      [("a", Finset.range 2)] := by
    apply merged_select _ "a" (-1) 0 2 (by decide) (by decide) (by decide)
      (by decide)
  obtain ⟨hSsz, -, -⟩ := scatter_single_facts "a" (-1) 0 2
    (⟨1, fun _ => 3, fun ix => (ix 0 : ℤ)⟩ : Tensor)
    (⟨1, fun i => if i = offOf (-1) 0 then (List.range 2).length else 3,
      fun ixf => (⟨1, fun _ => 3, fun ix => (ix 0 : ℤ)⟩ : Tensor).data fun i =>
        if i = offOf (-1) 0 then (List.range 2).getD (ixf (offOf (-1) 0)) 0
        else ixf i⟩ : Tensor) (by decide) (by decide) hG1eq hmerged
  set S := scatterTensor [⟨"a", -1, 2⟩]
    (⟨1, fun _ => 3, fun ix => (ix 0 : ℤ)⟩ : Tensor)
    [("a", Finset.range 2)] none 0 [("a", -1)] with hSdef
  have hoff : offOf (-1) 0 = 0 := by decide
  have hS0 : S.sizeAt 0 = 2 := by
    have h0 := hSsz 0
    rw [hoff] at h0
    rw [h0, if_pos rfl]
  have hS0rank : 0 < S.rank := by
    by_contra hge
    push_neg at hge
    rw [sizeAt_of_rank_le (by omega)] at hS0
    omega
  have hG2 : gatherTensor S [("a", Finset.range 2)] 0 [("a", -1)] =
      S.index_select ((-1 : ℤ) - (0 : ℕ)) (List.range 2) := by
    apply gather_single_select S "a" (-1) 0 2 (by decide)
    · omega
    · rw [shapeAt_dim S (-1) 0 (by decide), hoff, hS0]
      omega
  have hc := h.1 0
  rw [hG2, index_select_eq S (-1) 0 (List.range 2) (by decide)] at hc
  rw [sizeAt_mk, if_pos hS0rank, hoff, if_pos rfl, List.length_range] at hc
  revert hc
  decide

/-- C1 witness: scattering the scalar 42 over the full two worlds of plate
`a` and gathering back yields a tensor broadcast-equal to the scalar. -/
theorem gather_scatter_inverse_witness :
    ((-1 : ℤ) < 0 ∧ 1 ≤ 2 ∧
      (((vScalar.rank : ℤ) < ((0 : ℕ) : ℤ) - (-1 : ℤ)) ∨
        vScalar.shapeAt ((-1 : ℤ) - (0 : ℕ)) = 1 ∨
        vScalar.shapeAt ((-1 : ℤ) - (0 : ℕ)) = 2)) ∧
    elemEqBC
      (gatherTensor
        (scatterTensor [⟨"a", -1, 2⟩] vScalar [("a", Finset.range 2)] none 0
          [("a", -1)])
        [("a", Finset.range 2)] 0 [("a", -1)]) vScalar :=
  ⟨⟨by decide, by decide, by decide⟩,
    gather_scatter_inverse "a" (-1) 2 vScalar 0 (by decide) (by decide)
      (by decide)⟩

/-- C5 witness: the empty partitioned mapping is rejected with an error and
an empty `add_indices` log. -/
theorem scatter_dict_precondition_failure_witness :
    (([] : List (SKey × Tensor)) = [] ∨
        ∃ p ∈ ([] : List (SKey × Tensor)), p.1.isIxs = false) ∧
      ((scatterDict [] [] none 0 []).1 = [] ∧
        ∃ msg, (scatterDict [] [] none 0 []).2 = Except.error msg) :=
  ⟨Or.inl rfl, scatter_dict_precondition_failure [] [] none 0 [] (Or.inl rfl)⟩

end CausalPyro

namespace Chirho

theorem eventLoopGo_stop (env : SolverEnv D S) (ints : List ℕ) (fuel : ℕ)
    (d : D) (st : S) (t0 t1 : ℤ) (used : List ℕ) (h : ¬ t0 < t1) :
    eventLoopGo env ints fuel d st t0 t1 used = some (st, []) := by
  cases fuel <;> simp [eventLoopGo, h]

/-- C9: for every run of the interruption event loop with
`start_time < end_time` in which no interruption fires before `end_time`
(`get_next_interruptions` always reports fire time `end_time`), the loop
executes exactly one iteration: one integration phase from `start_time` to
`end_time` (the single logged step spans exactly `[t0, t1]`), it terminates
because the current time has reached `end_time`, and the result is the state
of that single integration as transformed by the one effect phase. -/
theorem event_loop_single_integration (env : SolverEnv D S) (ints : List ℕ)
    (fuel : ℕ) (d : D) (st : S) (t0 t1 : ℤ) (hlt : t0 < t1) (hfuel : 1 ≤ fuel)
    (hnext : ∀ a dy s u0 u1, (env.nextInterruptions a dy s u0 u1).2 = u1) :
    simulateLoop env ints fuel d st t0 t1 =
      some ((env.applyInterruptions
          (ints.filter fun i => (env.nextInterruptions ints d st t0 t1).1.contains i)
          d (env.simulateToInterruption ints d st t0 t1)).2,
        [⟨ints, (env.nextInterruptions ints d st t0 t1).1, t0, t1,
          ints.filter fun i => (env.nextInterruptions ints d st t0 t1).1.contains i⟩]) := by
  obtain ⟨f, rfl⟩ : ∃ f, fuel = f + 1 := ⟨fuel - 1, by omega⟩
  have hact : (ints.filter fun i => !(([] : List ℕ).contains i)) = ints := by
    simp
  simp only [simulateLoop, eventLoopGo, if_pos hlt, hact, hnext,
    eventLoopGo_stop env ints f _ _ t1 t1 _ (lt_irrefl t1), Option.map_some']

/-- C9 witness: a solver that never interrupts, simulated over `[0, 5]` with
fuel 1, runs exactly one integration step and returns the state unchanged. -/
theorem event_loop_single_integration_witness :
    ((0 : ℤ) < 5 ∧ 1 ≤ 1 ∧
      (∀ (a : List ℕ) (dy s : ℤ) (u0 u1 : ℤ),
        ((⟨fun _ _ _ _ u1 => ([], u1), fun _ _ s _ _ => s,
            fun _ dy s => (dy, s)⟩ : SolverEnv ℤ ℤ).nextInterruptions
              a dy s u0 u1).2 = u1)) ∧
    simulateLoop
        (⟨fun _ _ _ _ u1 => ([], u1), fun _ _ s _ _ => s,
          fun _ dy s => (dy, s)⟩ : SolverEnv ℤ ℤ) [] 1 0 7 0 5 =
      some (7, [⟨[], [], 0, 5, []⟩]) := by
  refine ⟨⟨by norm_num, le_refl 1, fun _ _ _ _ _ => rfl⟩, ?_⟩
  have := event_loop_single_integration
    (⟨fun _ _ _ _ u1 => ([], u1), fun _ _ s _ _ => s,
      fun _ dy s => (dy, s)⟩ : SolverEnv ℤ ℤ) [] 1 0 7 0 5
    (by norm_num) (le_refl 1) (fun _ _ _ _ _ => rfl)
  simpa using this

theorem eventLoopGo_invariant (env : SolverEnv D S) (ints : List ℕ)
    (hsub : ∀ a dy s u0 u1, ∀ x ∈ (env.nextInterruptions a dy s u0 u1).1, x ∈ a)
    (fuel : ℕ) :
    ∀ (d : D) (st : S) (t0 t1 : ℤ) (used : List ℕ) (stF : S) (steps : List Step),
      eventLoopGo env ints fuel d st t0 t1 used = some (stF, steps) →
      ∀ (j : ℕ) (hj : j < steps.length),
        (steps.get ⟨j, hj⟩).active =
            ints.filter (fun i =>
              !((used ++ ((steps.take j).map Step.terminal).flatten).contains i)) ∧
        (∀ x ∈ (steps.get ⟨j, hj⟩).terminal, x ∈ (steps.get ⟨j, hj⟩).active) ∧
        (steps.get ⟨j, hj⟩).live =
            ints.filter (fun i => (steps.get ⟨j, hj⟩).terminal.contains i) := by
  induction fuel with
  | zero =>
    intro d st t0 t1 used stF steps hrun j hj
    by_cases h : t0 < t1
    · simp [eventLoopGo, h] at hrun
    · simp [eventLoopGo, h] at hrun
      rcases hrun with ⟨-, rfl⟩
      simp at hj
  | succ f ih =>
    intro d st t0 t1 used stF steps hrun j hj
    by_cases h : t0 < t1
    · simp only [eventLoopGo, if_pos h] at hrun
      obtain ⟨⟨st', steps'⟩, hrec, heq⟩ := Option.map_eq_some'.mp hrun
      injection heq with h1 h2
      subst h2
      match j with
      | 0 =>
        refine ⟨by simp, ?_, by simp⟩
        intro x hx
        exact hsub _ d st t0 t1 x hx
      | j + 1 =>
        have hj' : j < steps'.length := by simpa using hj
        have := ih _ _ _ t1 _ st' steps' hrec j hj'
        simpa [List.append_assoc] using this
    · simp [eventLoopGo, h] at hrun
      rcases hrun with ⟨-, rfl⟩
      simp at hj

/-- C8: for every run of the interruption event loop, each terminal
interruption fires at most once: an interruption returned as terminal by the
discovery phase of step `j` is absent from the active handler set of every
later step (it was marked used before the next iteration, and used
interruptions are suppressed during every subsequent discovery and
integration phase), discovery only returns interruptions drawn from the
active set, the interruptions live during each effect phase are exactly the
ones that just fired, and consequently no interruption is terminal in two
distinct steps — even though `get_next_interruptions` is re-queried from
scratch every iteration. -/
theorem event_loop_single_fire (env : SolverEnv D S) (ints : List ℕ)
    (hsub : ∀ a dy s u0 u1, ∀ x ∈ (env.nextInterruptions a dy s u0 u1).1, x ∈ a)
    (fuel : ℕ) (d : D) (st : S) (t0 t1 : ℤ) (stF : S) (steps : List Step)
    (hrun : simulateLoop env ints fuel d st t0 t1 = some (stF, steps)) :
    (∀ (j k : ℕ) (hk : k < steps.length) (hjk : j < k),
        ∀ x ∈ (steps.get ⟨j, lt_trans hjk hk⟩).terminal,
          x ∉ (steps.get ⟨k, hk⟩).active) ∧
    (∀ (j : ℕ) (hj : j < steps.length),
        ∀ x ∈ (steps.get ⟨j, hj⟩).terminal, x ∈ (steps.get ⟨j, hj⟩).active) ∧
    (∀ (j : ℕ) (hj : j < steps.length),
        (steps.get ⟨j, hj⟩).live =
          ints.filter fun i => (steps.get ⟨j, hj⟩).terminal.contains i) ∧
    (∀ (j k : ℕ) (hk : k < steps.length) (hjk : j < k),
        ∀ x ∈ (steps.get ⟨j, lt_trans hjk hk⟩).terminal,
          x ∉ (steps.get ⟨k, hk⟩).terminal) := by
  have inv := eventLoopGo_invariant env ints hsub fuel d st t0 t1 [] stF steps hrun
  have hsupp : ∀ (j k : ℕ) (hk : k < steps.length) (hjk : j < k),
      ∀ x ∈ (steps.get ⟨j, lt_trans hjk hk⟩).terminal,
        x ∉ (steps.get ⟨k, hk⟩).active := by
    intro j k hk hjk x hx hact
    obtain ⟨hactive, -, -⟩ := inv k hk
    rw [hactive] at hact
    rw [List.mem_filter] at hact
    have hflat : x ∈ ((steps.take k).map Step.terminal).flatten := by
      rw [List.mem_flatten]
      refine ⟨(steps.get ⟨j, lt_trans hjk hk⟩).terminal, ?_, hx⟩
      apply List.mem_map_of_mem
      have hjt : steps.get ⟨j, lt_trans hjk hk⟩ = (steps.take k).get
          ⟨j, by simp [List.length_take]; omega⟩ := by
        simp only [List.get_eq_getElem]
        exact List.getElem_take' steps (lt_trans hjk hk) hjk
      rw [hjt]
      exact List.getElem_mem _
    simp only [List.nil_append, Bool.not_eq_true', List.contains_eq_any_beq] at hact
    obtain ⟨-, hfalse⟩ := hact
    rw [List.mem_flatten] at hflat
    obtain ⟨l, hl, hxl⟩ := hflat
    have : ((List.map Step.terminal (List.take k steps)).flatten.any
        fun y => x == y) = true := by
      rw [List.any_eq_true]
      exact ⟨x, List.mem_flatten.mpr ⟨l, hl, hxl⟩, by simp⟩
    rw [hfalse] at this
    exact Bool.false_ne_true this
  refine ⟨hsupp, fun j hj => (inv j hj).2.1, fun j hj => (inv j hj).2.2, ?_⟩
  intro j k hk hjk x hx hterm
  exact hsupp j k hk hjk x hx ((inv k hk).2.1 x hterm)

/-- C8 witness: with interruptions 0 (firing at t=2) and 1 (firing at t=5)
over `[0, 10]`, the loop produces three steps in time order, each
interruption is terminal exactly once, and the suppression and
live-interruption properties hold of the concrete log. -/
theorem event_loop_single_fire_witness :
    ((∀ a (dy s : ℤ) (u0 u1 : ℤ),
        ∀ x ∈ (twoFireEnv.nextInterruptions a dy s u0 u1).1, x ∈ a) ∧
      simulateLoop twoFireEnv [0, 1] 3 0 0 0 10 = some (2010, twoFireSteps)) ∧
    ((∀ (j k : ℕ) (hk : k < twoFireSteps.length) (hjk : j < k),
        ∀ x ∈ (twoFireSteps.get ⟨j, lt_trans hjk hk⟩).terminal,
          x ∉ (twoFireSteps.get ⟨k, hk⟩).active) ∧
      (∀ (j : ℕ) (hj : j < twoFireSteps.length),
        ∀ x ∈ (twoFireSteps.get ⟨j, hj⟩).terminal,
          x ∈ (twoFireSteps.get ⟨j, hj⟩).active) ∧
      (∀ (j : ℕ) (hj : j < twoFireSteps.length),
        (twoFireSteps.get ⟨j, hj⟩).live =
          [0, 1].filter fun i => (twoFireSteps.get ⟨j, hj⟩).terminal.contains i) ∧
      (∀ (j k : ℕ) (hk : k < twoFireSteps.length) (hjk : j < k),
        ∀ x ∈ (twoFireSteps.get ⟨j, lt_trans hjk hk⟩).terminal,
          x ∉ (twoFireSteps.get ⟨k, hk⟩).terminal)) := by
  have hsub : ∀ a (dy s : ℤ) (u0 u1 : ℤ),
      ∀ x ∈ (twoFireEnv.nextInterruptions a dy s u0 u1).1, x ∈ a := by
    intro a dy s u0 u1 x hx
    simp only [twoFireEnv] at hx
    by_cases h0 : 0 ∈ a
    · simp [h0] at hx
      subst hx
      exact h0
    · by_cases h1 : 1 ∈ a
      · simp [h0, h1] at hx
        subst hx
        exact h1
      · simp [h0, h1] at hx
  have hrun : simulateLoop twoFireEnv [0, 1] 3 0 0 0 10 =
      some (2010, twoFireSteps) := by decide
  exact ⟨⟨hsub, hrun⟩,
    event_loop_single_fire twoFireEnv [0, 1] hsub 3 0 0 0 10 2010 twoFireSteps hrun⟩

end Chirho

